import Mathlib

/-
  Verification of daemonlib against its specification.

  Shallow embedding of fifo.c, writer.c and log.c. Machine integers are
  modelled by Nat/Int; C `int` values in the embedded code stay inside
  ranges where Nat/Int arithmetic coincides with C arithmetic, and each
  definition records the source lines it embeds.
-/

set_option maxRecDepth 4000
set_option linter.unusedVariables false

namespace Daemonlib

/-! ### FIFO (fifo.c)

The FIFO struct of fifo.h: a ring buffer of `length` bytes with `begin`
(inclusive) and `end` (exclusive) positions and a shutdown flag. The mutex
and the two condition variables are concurrency primitives; waiting on the
writable/readable condition is modelled by oracles below. C field names
`begin`/`end` are Lean keywords, hence `begin_`/`end_`. -/

structure FIFO where
  buffer : List Nat
  length : Nat
  begin_ : Nat
  end_ : Nat
  shutdown : Bool
deriving DecidableEq, Repr

/-- Error codes set via `errno` by fifo.c. -/
inductive FifoError where
  | EPIPE
  | E2BIG
  | EWOULDBLOCK
deriving DecidableEq, Repr

/-- Embeds `fifo_writable_at_all` (fifo.c lines 31-37). -/
def fifo_writable_at_all (f : FIFO) : Nat :=
  if f.begin_ ≤ f.end_ then f.length - (f.end_ - f.begin_) - 1
  else f.begin_ - f.end_ - 1

/-- Embeds `fifo_writable_at_once` (fifo.c lines 39-49). -/
def fifo_writable_at_once (f : FIFO) : Nat :=
  if f.begin_ ≤ f.end_ then
    if f.begin_ = 0 then f.length - f.end_ - 1 else f.length - f.end_
  else f.begin_ - f.end_ - 1

/-- Embeds `fifo_readable_at_all` (fifo.c lines 51-57). -/
def fifo_readable_at_all (f : FIFO) : Nat :=
  if f.begin_ ≤ f.end_ then f.end_ - f.begin_
  else f.length - (f.begin_ - f.end_)

/-- Embeds `fifo_readable_at_once` (fifo.c lines 59-65). -/
def fifo_readable_at_once (f : FIFO) : Nat :=
  if f.begin_ ≤ f.end_ then f.end_ - f.begin_
  else f.length - f.begin_

/-- Embeds `fifo_create` (fifo.c lines 67-77): the mutex/condition setup has
no sequential content; the buffer and length come from the caller. -/
def fifo_create (buffer : List Nat) (length : Nat) : FIFO :=
  { buffer := buffer, length := length, begin_ := 0, end_ := 0, shutdown := false }

/-- Models `memcpy(dst + dstPos, src + srcPos, count)` on byte lists: the
`count` entries of `dst` starting at `dstPos` are replaced by the `count`
entries of `src` starting at `srcPos`. Every use below keeps both ranges in
bounds, where this splice is exactly what memcpy does. -/
def memcpyBytes (dst : List Nat) (dstPos : Nat) (src : List Nat) (srcPos count : Nat) :
    List Nat :=
  dst.take dstPos ++ (src.drop srcPos).take count ++ dst.drop (dstPos + count)

/-- Embeds the copy loop of `fifo_write` (fifo.c lines 125-157) in the
non-blocking case, where the wait branch is never entered. `fuel` bounds the
number of iterations; whenever the loop is entered with enough free space
(which `fifo_write` checks beforehand) each iteration copies at least one
byte, so `data.length` units of fuel suffice and the bound never bites. -/
def fifo_write_loop (fuel : Nat) (f : FIFO) (data : List Nat) (written : Nat) :
    FIFO × Nat :=
  match fuel with
  | 0 => (f, written)
  | fuel + 1 =>
    if data.length - written > 0 then
      let writable := min (fifo_writable_at_once f) (data.length - written)
      let f' : FIFO :=
        { f with buffer := memcpyBytes f.buffer f.end_ data written writable,
                 end_ := (f.end_ + writable) % f.length }
      fifo_write_loop fuel f' data (written + writable)
    else (f, written)

/-- Result of a `fifo_write` call: the return value, with `errno` on error. -/
inductive WriteResult where
  | ok (written : Nat)
  | error (e : FifoError)
deriving DecidableEq, Repr

/-- Embeds `fifo_write` (fifo.c lines 86-162) called with
`FIFO_FLAG_NON_BLOCKING`, returning the new FIFO state and the result.
C's `length <= 0` early return is the `data.length = 0` branch here since
lengths are Nat. -/
def fifo_write (f : FIFO) (data : List Nat) : FIFO × WriteResult :=
  if f.shutdown then (f, .error .EPIPE)
  else if data.length = 0 then (f, .ok 0)
  else if data.length > f.length - 1 then (f, .error .E2BIG)
  else if data.length > fifo_writable_at_all f then (f, .error .EWOULDBLOCK)
  else
    let r := fifo_write_loop data.length f data 0
    (r.1, .ok r.2)

/-- Result of a blocking `fifo_write`: `stuck` models waiting forever on a
condition variable that the environment oracle never signals again. -/
inductive BlockingWriteResult where
  | ok (written : Nat)
  | error (e : FifoError)
  | stuck
deriving DecidableEq, Repr

/-- Embeds the loop of `fifo_write` (fifo.c lines 125-157) in the blocking
case. Each `condition_wait` on the writable condition is modelled by taking
the next FIFO state from the `waits` oracle (the state the writer observes
when the wait returns); directly after a wait the shutdown flag is checked,
exactly as in fifo.c lines 128-141. -/
def fifo_write_blocking_loop (fuel : Nat) (f : FIFO) (data : List Nat) (written : Nat)
    (waits : List FIFO) : FIFO × BlockingWriteResult :=
  match fuel with
  | 0 => (f, .stuck)
  | fuel + 1 =>
    if data.length - written > 0 then
      if fifo_writable_at_all f ≤ 0 then
        match waits with
        | [] => (f, .stuck)
        | w :: rest =>
          if w.shutdown then (w, .error .EPIPE)
          else fifo_write_blocking_loop fuel w data written rest
      else
        let writable := min (fifo_writable_at_once f) (data.length - written)
        let f' : FIFO :=
          { f with buffer := memcpyBytes f.buffer f.end_ data written writable,
                   end_ := (f.end_ + writable) % f.length }
        fifo_write_blocking_loop fuel f' data (written + writable) waits
    else (f, .ok written)

/-- Embeds `fifo_write` (fifo.c lines 86-162) called without
`FIFO_FLAG_NON_BLOCKING`. -/
def fifo_write_blocking (f : FIFO) (data : List Nat) (waits : List FIFO) :
    FIFO × BlockingWriteResult :=
  if f.shutdown then (f, .error .EPIPE)
  else if data.length = 0 then (f, .ok 0)
  else fifo_write_blocking_loop (data.length + waits.length + 1) f data 0 waits

/-- Result of a `fifo_read` call: the bytes read (short reads allowed),
`EWOULDBLOCK`, or `stuck` for a blocking read waiting forever. -/
inductive ReadResult where
  | ok (bytes : List Nat)
  | error (e : FifoError)
  | stuck
deriving DecidableEq, Repr

/-- Embeds the copy loop of `fifo_read` (fifo.c lines 204-217); `acc` holds
the bytes copied out so far (C's `read` counter is `acc.length`). As for the
write loop, `n` units of fuel always suffice. -/
def fifo_read_loop (fuel : Nat) (f : FIFO) (n : Nat) (acc : List Nat) :
    FIFO × List Nat :=
  match fuel with
  | 0 => (f, acc)
  | fuel + 1 =>
    if fifo_readable_at_all f > 0 ∧ n - acc.length > 0 then
      let readable := min (fifo_readable_at_once f) (n - acc.length)
      let bytes := (f.buffer.drop f.begin_).take readable
      fifo_read_loop fuel
        { f with begin_ := (f.begin_ + readable) % f.length } n (acc ++ bytes)
    else (f, acc)

/-- Embeds the wait loop of `fifo_read` (fifo.c lines 194-202): wait on the
readable condition (taking the observed state from the `waits` oracle) until
data is readable, breaking out early when shutdown is observed; `none`
models waiting forever. -/
def fifo_read_wait_loop (fuel : Nat) (f : FIFO) (waits : List FIFO) : Option FIFO :=
  match fuel with
  | 0 => none
  | fuel + 1 =>
    if fifo_readable_at_all f ≤ 0 then
      match waits with
      | [] => none
      | w :: rest => if w.shutdown then some w else fifo_read_wait_loop fuel w rest
    else some f

/-- Embeds `fifo_read` (fifo.c lines 165-222). `blocking` is the absence of
`FIFO_FLAG_NON_BLOCKING`; `waits` is the oracle for the blocking wait loop
and is unused in the non-blocking case. -/
def fifo_read (f : FIFO) (n : Nat) (blocking : Bool) (waits : List FIFO) :
    FIFO × ReadResult :=
  if n = 0 then (f, .ok [])
  else if fifo_readable_at_all f ≤ 0 ∧ f.shutdown then (f, .ok [])
  else if fifo_readable_at_all f ≤ 0 ∧ ¬blocking then (f, .error .EWOULDBLOCK)
  else if blocking then
    match fifo_read_wait_loop (waits.length + 1) f waits with
    | none => (f, .stuck)
    | some f' =>
      let r := fifo_read_loop n f' n []
      (r.1, .ok r.2)
  else
    let r := fifo_read_loop n f n []
    (r.1, .ok r.2)

/-- A sequence of non-blocking `fifo_read` calls with the given request
sizes, concatenating the bytes they return (stopping at the first error). -/
def fifo_read_many (f : FIFO) (rs : List Nat) : FIFO × List Nat :=
  match rs with
  | [] => (f, [])
  | r :: rest =>
    match fifo_read f r false [] with
    | (f', .ok bytes) =>
      let t := fifo_read_many f' rest
      (t.1, bytes ++ t.2)
    | (f', _) => (f', [])

/-- Embeds `fifo_shutdown` (fifo.c lines 224-233). -/
def fifo_shutdown (f : FIFO) : FIFO := { f with shutdown := true }

/-! ### Abstraction: the byte sequence held by the ring buffer -/

/-- The bytes currently stored in the FIFO, oldest first: the region from
`begin_` up to `end_`, wrapping past the end of the backing buffer when
`end_ < begin_`. -/
def fifo_content (f : FIFO) : List Nat :=
  if f.begin_ ≤ f.end_ then (f.buffer.drop f.begin_).take (f.end_ - f.begin_)
  else f.buffer.drop f.begin_ ++ f.buffer.take f.end_

/-- The structural invariant of a live FIFO: the backing buffer has exactly
`length` bytes and both positions are inside it (established by
`fifo_create` and preserved by every operation). -/
def FIFO.WellFormed (f : FIFO) : Prop :=
  f.buffer.length = f.length ∧ f.begin_ < f.length ∧ f.end_ < f.length

instance (f : FIFO) : Decidable f.WellFormed := by
  unfold FIFO.WellFormed; infer_instance

/-! ### List splicing helpers -/

theorem take_append_exact {α : Type} (X Y Z : List α) (n : Nat)
    (h : n = X.length + Y.length) : ((X ++ Y) ++ Z).take n = X ++ Y := by
  subst h
  rw [List.take_append_eq_append_take, ← List.length_append, List.take_length]
  simp

theorem drop_append_left {α : Type} (X Y : List α) (n : Nat) (h : n ≤ X.length) :
    (X ++ Y).drop n = X.drop n ++ Y := by
  rw [List.drop_append_eq_append_drop, Nat.sub_eq_zero_of_le h, List.drop_zero]

theorem drop_append_right {α : Type} (X Y : List α) (n : Nat) (h : X.length ≤ n) :
    (X ++ Y).drop n = Y.drop (n - X.length) := by
  rw [List.drop_append_eq_append_drop, List.drop_eq_nil_of_le h, List.nil_append]

/-! ### FIFO invariants -/

theorem fifo_content_length (f : FIFO) (h : f.WellFormed) :
    (fifo_content f).length = fifo_readable_at_all f := by
  obtain ⟨hB, hb, he⟩ := h
  unfold fifo_content fifo_readable_at_all
  split
  · simp only [List.length_take, List.length_drop]
    omega
  · simp only [List.length_append, List.length_drop, List.length_take]
    omega

theorem fifo_writable_readable (f : FIFO) (h : f.WellFormed) :
    fifo_writable_at_all f = f.length - 1 - fifo_readable_at_all f := by
  obtain ⟨hB, hb, he⟩ := h
  unfold fifo_writable_at_all fifo_readable_at_all
  split <;> omega

theorem fifo_readable_le (f : FIFO) (h : f.WellFormed) :
    fifo_readable_at_all f ≤ f.length - 1 := by
  obtain ⟨hB, hb, he⟩ := h
  unfold fifo_readable_at_all
  split <;> omega

theorem fifo_content_of_le (B : List Nat) (L b e : Nat) (sd : Bool) (h : b ≤ e) :
    fifo_content ⟨B, L, b, e, sd⟩ = (B.drop b).take (e - b) := by
  simp [fifo_content, h]

theorem fifo_content_of_gt (B : List Nat) (L b e : Nat) (sd : Bool) (h : e < b) :
    fifo_content ⟨B, L, b, e, sd⟩ = B.drop b ++ B.take e := by
  simp [fifo_content, Nat.not_le.mpr h]

/-- One iteration of the copy loop of `fifo_write` appends the copied chunk
to the abstract content and keeps the FIFO well-formed. -/
theorem fifo_write_iter (B : List Nat) (L b e : Nat) (sd : Bool)
    (data : List Nat) (written w : Nat)
    (hB : B.length = L) (hb : b < L) (he : e < L)
    (hw : w = min (fifo_writable_at_once ⟨B, L, b, e, sd⟩) (data.length - written))
    (h1 : 1 ≤ data.length - written)
    (hsp : data.length - written ≤ fifo_writable_at_all ⟨B, L, b, e, sd⟩) :
    1 ≤ w ∧ w ≤ data.length - written ∧
    (memcpyBytes B e data written w).length = L ∧ (e + w) % L < L ∧
    fifo_content ⟨memcpyBytes B e data written w, L, b, (e + w) % L, sd⟩
      = fifo_content ⟨B, L, b, e, sd⟩ ++ (data.drop written).take w := by
  have hL1 : 1 ≤ L := by omega
  have hw' : w = min (if b ≤ e then (if b = 0 then L - e - 1 else L - e) else b - e - 1)
      (data.length - written) := hw
  have hsp' : data.length - written
      ≤ (if b ≤ e then L - (e - b) - 1 else b - e - 1) := hsp
  clear hw hsp
  have hmem : memcpyBytes B e data written w
      = (B.take e ++ (data.drop written).take w) ++ B.drop (e + w) := rfl
  have hTlen : (B.take e).length = e := by
    simp only [List.length_take]
    omega
  by_cases hbe : b ≤ e
  · -- begin ≤ end: the chunk is copied at `end` towards the top of the buffer
    rw [if_pos hbe] at hw' hsp'
    have hwfacts : 1 ≤ w ∧ w ≤ data.length - written ∧ e + w ≤ L ∧ (b = 0 → e + w < L) := by
      by_cases hb0 : b = 0
      · rw [if_pos hb0] at hw'
        exact ⟨by omega, by omega, by omega, fun _ => by omega⟩
      · rw [if_neg hb0] at hw'
        exact ⟨by omega, by omega, by omega, fun h0 => absurd h0 hb0⟩
    obtain ⟨hw1, hww, hewL, hb0w⟩ := hwfacts
    have hchunklen : ((data.drop written).take w).length = w := by
      simp only [List.length_take, List.length_drop]
      omega
    have hmemlen : (memcpyBytes B e data written w).length = L := by
      rw [hmem]
      simp only [List.length_append, List.length_take, List.length_drop]
      omega
    refine ⟨hw1, hww, hmemlen, Nat.mod_lt _ (by omega), ?_⟩
    by_cases hwrap : e + w = L
    · -- the copy ends exactly at the top of the buffer: `end` wraps to 0
      have hb0 : 0 < b := by
        rcases Nat.eq_zero_or_pos b with h0 | h0
        · exact absurd (hb0w h0) (by omega)
        · exact h0
      have hmod : (e + w) % L = 0 := by
        rw [hwrap, Nat.mod_self]
      rw [hmod, fifo_content_of_gt _ _ _ _ _ hb0, fifo_content_of_le _ _ _ _ _ hbe]
      have hD : B.drop (e + w) = [] := List.drop_eq_nil_of_le (by omega)
      rw [hmem, hD, List.append_nil, List.take_zero, List.append_nil]
      rw [drop_append_left _ _ b (by omega), List.drop_take]
    · have hmod : (e + w) % L = e + w := Nat.mod_eq_of_lt (by omega)
      rw [hmod, fifo_content_of_le _ _ _ _ _ (by omega), fifo_content_of_le _ _ _ _ _ hbe]
      rw [hmem, drop_append_left _ _ b (by rw [List.length_append]; omega),
        drop_append_left _ _ b (by omega)]
      rw [take_append_exact _ _ _ (e + w - b)
        (by rw [List.length_drop, hTlen, hchunklen]; omega)]
      rw [List.drop_take]
  · -- begin > end: the free region is contiguous, the copy does not wrap
    push_neg at hbe
    rw [if_neg (Nat.not_le.mpr hbe)] at hw' hsp'
    have hwlt : e + w < b := by omega
    have hw1 : 1 ≤ w := by omega
    have hww : w ≤ data.length - written := by omega
    have hchunklen : ((data.drop written).take w).length = w := by
      simp only [List.length_take, List.length_drop]
      omega
    have hTClen : (B.take e ++ (data.drop written).take w).length = e + w := by
      rw [List.length_append, hTlen, hchunklen]
    have hmemlen : (memcpyBytes B e data written w).length = L := by
      rw [hmem]
      simp only [List.length_append, List.length_take, List.length_drop]
      omega
    refine ⟨hw1, hww, hmemlen, Nat.mod_lt _ (by omega), ?_⟩
    have hmod : (e + w) % L = e + w := Nat.mod_eq_of_lt (by omega)
    rw [hmod, fifo_content_of_gt _ _ _ _ _ hwlt, fifo_content_of_gt _ _ _ _ _ hbe]
    rw [hmem, drop_append_right _ _ b (by omega), List.drop_drop, hTClen]
    rw [show e + w + (b - (e + w)) = b from by omega]
    rw [take_append_exact _ _ _ (e + w) (by rw [hTlen, hchunklen]), ← List.append_assoc]

/-- The copy loop of `fifo_write` writes all remaining bytes and appends them
to the abstract content, provided they fit into the free space. -/
theorem fifo_write_loop_spec (fuel : Nat) :
    ∀ (f : FIFO) (data : List Nat) (written : Nat),
    f.WellFormed → written ≤ data.length →
    data.length - written ≤ fifo_writable_at_all f →
    data.length - written ≤ fuel →
    (fifo_write_loop fuel f data written).2 = data.length ∧
    (fifo_write_loop fuel f data written).1.WellFormed ∧
    fifo_content (fifo_write_loop fuel f data written).1
      = fifo_content f ++ data.drop written ∧
    (fifo_write_loop fuel f data written).1.begin_ = f.begin_ ∧
    (fifo_write_loop fuel f data written).1.length = f.length ∧
    (fifo_write_loop fuel f data written).1.shutdown = f.shutdown := by
  induction fuel with
  | zero =>
    intro f data written hWF hwr hsp hfuel
    have hdone : written = data.length := by omega
    rw [fifo_write_loop]
    simp [hdone, List.drop_length, hWF]
  | succ fuel ih =>
    intro f data written hWF hwr hsp hfuel
    by_cases hrem : data.length - written > 0
    · obtain ⟨B, L, b, e, sd⟩ := f
      obtain ⟨hB, hb, he⟩ := hWF
      simp only at hB hb he
      have hiter := fifo_write_iter B L b e sd data written
        (min (fifo_writable_at_once ⟨B, L, b, e, sd⟩) (data.length - written))
        hB hb he rfl (by omega) hsp
      obtain ⟨hw1, hww, hmemlen, hmodlt, hcontent⟩ := hiter
      rw [fifo_write_loop]
      rw [if_pos hrem]
      have hcl := fifo_content_length ⟨B, L, b, e, sd⟩ ⟨hB, hb, he⟩
      have hwa := fifo_writable_readable ⟨B, L, b, e, sd⟩ ⟨hB, hb, he⟩
      have hrle := fifo_readable_le ⟨B, L, b, e, sd⟩ ⟨hB, hb, he⟩
      set w := min (fifo_writable_at_once ⟨B, L, b, e, sd⟩) (data.length - written) with hwdef
      set f' : FIFO := ⟨memcpyBytes B e data written w, L, b, (e + w) % L, sd⟩ with hf'def
      have hWF' : f'.WellFormed := ⟨hmemlen, hb, hmodlt⟩
      have hcl' := fifo_content_length f' hWF'
      have hwa' := fifo_writable_readable f' hWF'
      have hcontlen : (fifo_content f').length
          = (fifo_content ⟨B, L, b, e, sd⟩).length + w := by
        rw [hcontent, List.length_append]
        simp only [List.length_take, List.length_drop]
        omega
      have hspace' : data.length - (written + w) ≤ fifo_writable_at_all f' := by
        have e3 : f'.length = L := rfl
        have e8 : (⟨B, L, b, e, sd⟩ : FIFO).length = L := rfl
        omega
      have := ih f' data (written + w) hWF' (by omega) hspace' (by omega)
      refine ⟨this.1, this.2.1, ?_, ?_, ?_, ?_⟩
      · rw [this.2.2.1, hcontent, List.append_assoc]
        congr 1
        have hdd : List.drop (written + w) data = List.drop w (List.drop written data) := by
          rw [List.drop_drop]
        rw [hdd, List.take_append_drop]
      · rw [this.2.2.2.1]
      · rw [this.2.2.2.2.1]
      · rw [this.2.2.2.2.2]
    · have hdone : written = data.length := by omega
      rw [fifo_write_loop]
      rw [if_neg hrem]
      simp [hdone, List.drop_length, hWF]

/-- A non-blocking `fifo_write` whose data fits into the free space succeeds,
returns the full length, and appends the data to the abstract content. -/
theorem fifo_write_ok (f : FIFO) (data : List Nat) (hWF : f.WellFormed)
    (hsd : f.shutdown = false) (hn : data.length ≠ 0)
    (hsp : data.length ≤ fifo_writable_at_all f) :
    (fifo_write f data).2 = .ok data.length ∧
    (fifo_write f data).1.WellFormed ∧
    fifo_content (fifo_write f data).1 = fifo_content f ++ data ∧
    (fifo_write f data).1.begin_ = f.begin_ ∧
    (fifo_write f data).1.length = f.length ∧
    (fifo_write f data).1.shutdown = f.shutdown := by
  have hwa := fifo_writable_readable f hWF
  have hcap : ¬ data.length > f.length - 1 := by omega
  have hloop := fifo_write_loop_spec data.length f data 0 hWF (by omega)
    (by omega) (by omega)
  rw [fifo_write, if_neg (by simp [hsd] : ¬ f.shutdown = true), if_neg hn,
    if_neg hcap, if_neg (by omega : ¬ data.length > fifo_writable_at_all f)]
  rw [List.drop_zero] at hloop
  refine ⟨?_, hloop.2.1, hloop.2.2.1, hloop.2.2.2.1,
    hloop.2.2.2.2.1, hloop.2.2.2.2.2⟩
  show WriteResult.ok (fifo_write_loop data.length f data 0).2
      = WriteResult.ok data.length
  rw [hloop.1]

/-- One iteration of the copy loop of `fifo_read` takes the next chunk off
the front of the abstract content. -/
theorem fifo_read_iter (B : List Nat) (L b e : Nat) (sd : Bool) (m r : Nat)
    (hB : B.length = L) (hb : b < L) (he : e < L)
    (hr : r = min (fifo_readable_at_once ⟨B, L, b, e, sd⟩) m)
    (h1 : 1 ≤ m) (hread : 1 ≤ fifo_readable_at_all ⟨B, L, b, e, sd⟩) :
    1 ≤ r ∧ r ≤ m ∧ r ≤ fifo_readable_at_all ⟨B, L, b, e, sd⟩ ∧ (b + r) % L < L ∧
    (B.drop b).take r = (fifo_content ⟨B, L, b, e, sd⟩).take r ∧
    fifo_content ⟨B, L, (b + r) % L, e, sd⟩ = (fifo_content ⟨B, L, b, e, sd⟩).drop r := by
  have hL1 : 1 ≤ L := by omega
  have hr' : r = min (if b ≤ e then e - b else L - b) m := hr
  have hread' : 1 ≤ (if b ≤ e then e - b else L - (b - e)) := hread
  clear hr hread
  by_cases hbe : b ≤ e
  · -- begin ≤ end: the readable region is contiguous
    rw [if_pos hbe] at hr' hread'
    have hr1 : 1 ≤ r := by omega
    have hrle : r ≤ e - b := by omega
    have hraa : r ≤ fifo_readable_at_all ⟨B, L, b, e, sd⟩ := by
      show r ≤ if b ≤ e then e - b else L - (b - e)
      rw [if_pos hbe]
      omega
    have hmod : (b + r) % L = b + r := Nat.mod_eq_of_lt (by omega)
    refine ⟨hr1, by omega, hraa, by rw [hmod]; omega, ?_, ?_⟩
    · rw [fifo_content_of_le _ _ _ _ _ hbe, List.take_take,
        Nat.min_eq_left hrle]
    · rw [hmod, fifo_content_of_le _ _ _ _ _ (by omega : b + r ≤ e),
        fifo_content_of_le _ _ _ _ _ hbe, List.drop_take, List.drop_drop,
        show e - (b + r) = e - b - r from by omega]
  · -- begin > end: read from the top region first
    push_neg at hbe
    rw [if_neg (Nat.not_le.mpr hbe)] at hr'
    rw [if_neg (Nat.not_le.mpr hbe)] at hread'
    have hr1 : 1 ≤ r := by omega
    have hrle : r ≤ L - b := by omega
    have hraa : r ≤ fifo_readable_at_all ⟨B, L, b, e, sd⟩ := by
      show r ≤ if b ≤ e then e - b else L - (b - e)
      rw [if_neg (Nat.not_le.mpr hbe)]
      omega
    have hXlen : (B.drop b).length = L - b := by
      rw [List.length_drop, hB]
    have htk : (B.drop b).take r = (fifo_content ⟨B, L, b, e, sd⟩).take r := by
      rw [fifo_content_of_gt _ _ _ _ _ hbe, List.take_append_eq_append_take,
        hXlen, Nat.sub_eq_zero_of_le (by omega), List.take_zero, List.append_nil]
    by_cases hwrap : r = L - b
    · -- the read consumes the whole top region: begin wraps to 0
      have hmod : (b + r) % L = 0 := by
        rw [show b + r = L from by omega, Nat.mod_self]
      refine ⟨hr1, by omega, hraa, by rw [hmod]; omega, htk, ?_⟩
      have hX : (B.drop b).drop r = [] :=
        List.drop_eq_nil_of_le (by rw [hXlen]; omega)
      rw [hmod, fifo_content_of_le _ _ _ _ _ (Nat.zero_le e),
        fifo_content_of_gt _ _ _ _ _ hbe, List.drop_zero, Nat.sub_zero,
        List.drop_append_eq_append_drop, hX, List.nil_append, hXlen,
        show r - (L - b) = 0 from by omega, List.drop_zero]
    · have hrlt : r < L - b := by omega
      have hmod : (b + r) % L = b + r := Nat.mod_eq_of_lt (by omega)
      refine ⟨hr1, by omega, hraa, by rw [hmod]; omega, htk, ?_⟩
      rw [hmod, fifo_content_of_gt _ _ _ _ _ (by omega : e < b + r),
        fifo_content_of_gt _ _ _ _ _ hbe, List.drop_append_eq_append_drop,
        hXlen, show r - (L - b) = 0 from by omega, List.drop_zero,
        List.drop_drop]

/-- The copy loop of `fifo_read` returns the first `n - acc.length` bytes of
the abstract content (all of which are available) appended to `acc`. -/
theorem fifo_read_loop_spec (fuel : Nat) :
    ∀ (f : FIFO) (n : Nat) (acc : List Nat),
    f.WellFormed → n - acc.length ≤ (fifo_content f).length →
    n - acc.length ≤ fuel →
    (fifo_read_loop fuel f n acc).2 = acc ++ (fifo_content f).take (n - acc.length) ∧
    (fifo_read_loop fuel f n acc).1.WellFormed ∧
    fifo_content (fifo_read_loop fuel f n acc).1
      = (fifo_content f).drop (n - acc.length) ∧
    (fifo_read_loop fuel f n acc).1.end_ = f.end_ ∧
    (fifo_read_loop fuel f n acc).1.length = f.length ∧
    (fifo_read_loop fuel f n acc).1.shutdown = f.shutdown := by
  induction fuel with
  | zero =>
    intro f n acc hWF hav hfuel
    have hdone : n - acc.length = 0 := by omega
    rw [fifo_read_loop]
    simp [hdone, hWF]
  | succ fuel ih =>
    intro f n acc hWF hav hfuel
    by_cases hrem : n - acc.length > 0
    · obtain ⟨B, L, b, e, sd⟩ := f
      obtain ⟨hB, hb, he⟩ := hWF
      simp only at hB hb he
      have hcl := fifo_content_length ⟨B, L, b, e, sd⟩ ⟨hB, hb, he⟩
      have hread : 1 ≤ fifo_readable_at_all ⟨B, L, b, e, sd⟩ := by omega
      have hiter := fifo_read_iter B L b e sd (n - acc.length)
        (min (fifo_readable_at_once ⟨B, L, b, e, sd⟩) (n - acc.length))
        hB hb he rfl (by omega) hread
      obtain ⟨hr1, hrm, hraa, hmodlt, hbytes, hcontent⟩ := hiter
      rw [fifo_read_loop]
      rw [if_pos ⟨by omega, hrem⟩]
      set r := min (fifo_readable_at_once ⟨B, L, b, e, sd⟩) (n - acc.length) with hrdef
      set f' : FIFO := ⟨B, L, (b + r) % L, e, sd⟩ with hf'def
      have hWF' : f'.WellFormed := ⟨hB, hmodlt, he⟩
      have hbl : ((B.drop b).take r).length = r := by
        rw [hbytes, List.length_take]
        omega
      have hacc' : (acc ++ (B.drop b).take r).length = acc.length + r := by
        rw [List.length_append, hbl]
      have hcontlen' : (fifo_content f').length
          = (fifo_content ⟨B, L, b, e, sd⟩).length - r := by
        rw [hcontent, List.length_drop]
      have := ih f' n (acc ++ (B.drop b).take r) hWF'
        (by rw [hacc', hcontlen']; omega) (by rw [hacc']; omega)
      rw [hacc'] at this
      refine ⟨?_, this.2.1, ?_, ?_, ?_, ?_⟩
      · rw [this.1, hcontent, hbytes, List.append_assoc]
        congr 1
        rw [show n - acc.length = r + (n - (acc.length + r)) from by omega,
          List.take_add]
      · rw [this.2.2.1, hcontent, List.drop_drop]
        congr 1
        omega
      · rw [this.2.2.2.1]
      · rw [this.2.2.2.2.1]
      · rw [this.2.2.2.2.2]
    · have hdone : n - acc.length = 0 := by omega
      rw [fifo_read_loop]
      rw [if_neg (by omega : ¬ (fifo_readable_at_all f > 0 ∧ n - acc.length > 0))]
      simp [hdone, hWF]

/-- A non-blocking `fifo_read` for at most the available byte count returns
exactly the requested prefix of the abstract content. -/
theorem fifo_read_nb_ok (f : FIFO) (n : Nat) (hWF : f.WellFormed)
    (hn : n ≤ (fifo_content f).length) :
    (fifo_read f n false []).2 = .ok ((fifo_content f).take n) ∧
    (fifo_read f n false []).1.WellFormed ∧
    fifo_content (fifo_read f n false []).1 = (fifo_content f).drop n ∧
    (fifo_read f n false []).1.end_ = f.end_ ∧
    (fifo_read f n false []).1.length = f.length ∧
    (fifo_read f n false []).1.shutdown = f.shutdown := by
  by_cases h0 : n = 0
  · rw [fifo_read, if_pos h0]
    simp [h0, hWF]
  · have hcl := fifo_content_length f hWF
    have hreadable : ¬ fifo_readable_at_all f ≤ 0 := by omega
    have hloop := fifo_read_loop_spec n f n [] hWF (by simpa using hn)
      (by simp)
    rw [fifo_read, if_neg h0, if_neg (by simp [hreadable]),
      if_neg (by simp [hreadable]), if_neg (by simp)]
    simp only [List.nil_append, List.length_nil, Nat.sub_zero] at hloop
    refine ⟨?_, hloop.2.1, hloop.2.2.1, hloop.2.2.2.1,
      hloop.2.2.2.2.1, hloop.2.2.2.2.2⟩
    show ReadResult.ok (fifo_read_loop n f n []).2
        = ReadResult.ok ((fifo_content f).take n)
    rw [hloop.1]

/-- A sequence of non-blocking reads whose requests total at most the
available byte count returns exactly that prefix of the abstract content. -/
theorem fifo_read_many_spec : ∀ (rs : List Nat) (f : FIFO), f.WellFormed →
    rs.sum ≤ (fifo_content f).length →
    (fifo_read_many f rs).2 = (fifo_content f).take rs.sum ∧
    (fifo_read_many f rs).1.WellFormed ∧
    fifo_content (fifo_read_many f rs).1 = (fifo_content f).drop rs.sum := by
  intro rs
  induction rs with
  | nil =>
    intro f hWF hsum
    rw [fifo_read_many]
    simp [hWF]
  | cons r rest ih =>
    intro f hWF hsum
    rw [List.sum_cons] at hsum
    have hr := fifo_read_nb_ok f r hWF (by omega)
    have hpair : fifo_read f r false []
        = ((fifo_read f r false []).1, .ok ((fifo_content f).take r)) := by
      rw [← hr.1]
    have hrest := ih (fifo_read f r false []).1 hr.2.1
      (by rw [hr.2.2.1, List.length_drop]; omega)
    rw [fifo_read_many, hpair]
    refine ⟨?_, hrest.2.1, ?_⟩
    · show (fifo_content f).take r ++ (fifo_read_many (fifo_read f r false []).1 rest).2
        = (fifo_content f).take (r :: rest).sum
      rw [hrest.1, hr.2.2.1, List.sum_cons, List.take_add]
    · show fifo_content (fifo_read_many (fifo_read f r false []).1 rest).1
        = (fifo_content f).drop (r :: rest).sum
      rw [hrest.2.2, hr.2.2.1, List.drop_drop, List.sum_cons]

theorem fifo_write_blocking_loop_succ (fuel : Nat) (f : FIFO) (data : List Nat)
    (written : Nat) (waits : List FIFO) :
    fifo_write_blocking_loop (fuel + 1) f data written waits =
      if data.length - written > 0 then
        if fifo_writable_at_all f ≤ 0 then
          match waits with
          | [] => (f, .stuck)
          | w :: rest =>
            if w.shutdown then (w, .error .EPIPE)
            else fifo_write_blocking_loop fuel w data written rest
        else
          let writable := min (fifo_writable_at_once f) (data.length - written)
          let f' : FIFO :=
            { f with buffer := memcpyBytes f.buffer f.end_ data written writable,
                     end_ := (f.end_ + writable) % f.length }
          fifo_write_blocking_loop fuel f' data (written + writable) waits
      else (f, .ok written) := by
  rw [fifo_write_blocking_loop.eq_def]

/-- The blocking write wait loop: while the buffer observed after each wait
stays full and not shut down the writer keeps waiting, and as soon as it
observes the shutdown flag it fails with `EPIPE` (fifo.c lines 127-142). -/
theorem fifo_write_blocking_wait_shutdown :
    ∀ (pre : List FIFO) (fuel : Nat) (f : FIFO) (data : List Nat) (written : Nat)
      (ws : FIFO) (rest : List FIFO),
    pre.length + 1 ≤ fuel →
    1 ≤ data.length - written →
    fifo_writable_at_all f = 0 →
    (∀ w ∈ pre, fifo_writable_at_all w = 0 ∧ w.shutdown = false) →
    ws.shutdown = true →
    fifo_write_blocking_loop fuel f data written (pre ++ ws :: rest)
      = (ws, .error .EPIPE) := by
  intro pre
  induction pre with
  | nil =>
    intro fuel f data written ws rest hfuel h1 hfull hpre hws
    obtain ⟨fuel', rfl⟩ : ∃ k, fuel = k + 1 := ⟨fuel - 1, by omega⟩
    rw [fifo_write_blocking_loop_succ]
    rw [if_pos (by omega), if_pos (by omega)]
    simp [hws]
  | cons w pre ih =>
    intro fuel f data written ws rest hfuel h1 hfull hpre hws
    obtain ⟨fuel', rfl⟩ : ∃ k, fuel = k + 1 := ⟨fuel - 1, by omega⟩
    have hw := hpre w (List.mem_cons_self w pre)
    rw [fifo_write_blocking_loop_succ]
    rw [if_pos (by omega), if_pos (by omega)]
    rw [List.cons_append]
    simp only [hw.2, Bool.false_eq_true, if_false]
    exact ih fuel' w data written ws rest (by simp at hfuel ⊢; omega) h1 hw.1
      (fun x hx => hpre x (List.mem_cons_of_mem _ hx)) hws

/-! ### The FIFO claims -/

/-- C1, as stated, fails: from a reachable state whose ring still holds a
byte, a write of `s` followed by reads totaling `|s|` returns the old byte,
not `s`. The state is exhibited as reachable: it arises from one 1-byte
write on a freshly created FIFO of length 3; the subsequent write of
`s = [9]` succeeds (free space is 1), yet the 1-byte read yields `[7]`. -/
theorem C1_counterexample :
    (fifo_write (fifo_create [0, 0, 0] 3) [7]).2 = .ok 1 ∧
    (fifo_write (fifo_write (fifo_create [0, 0, 0] 3) [7]).1 [9]).2 = .ok 1 ∧
    (fifo_read_many (fifo_write (fifo_write (fifo_create [0, 0, 0] 3) [7]).1 [9]).1
        [1]).2 ≠ [9] := by
  decide

/-- C1 (amended): for every byte sequence `s` with `|s| ≤ L-1` and every
reachable begin/end position at which the FIFO is empty (`begin = end`), a
single non-blocking `fifo_write` of `s` followed by non-blocking `fifo_read`
calls totaling `|s|` bytes yields exactly the bytes of `s` in order,
including when the data straddles the wrap-around point of the buffer. -/
theorem C1_fifo_write_read_roundtrip (L k : Nat) (B s rs : List Nat)
    (hB : B.length = L) (hk : k < L) (hs : s.length ≤ L - 1)
    (hrs : rs.sum = s.length) :
    (fifo_write ⟨B, L, k, k, false⟩ s).2 = .ok s.length ∧
    (fifo_read_many (fifo_write ⟨B, L, k, k, false⟩ s).1 rs).2 = s := by
  have hWF : (⟨B, L, k, k, false⟩ : FIFO).WellFormed := ⟨hB, hk, hk⟩
  have hcont : fifo_content ⟨B, L, k, k, false⟩ = [] := by
    rw [fifo_content_of_le _ _ _ _ _ (le_refl k), Nat.sub_self, List.take_zero]
  by_cases h0 : s.length = 0
  · have hsnil : s = [] := List.eq_nil_of_length_eq_zero h0
    have hwr : fifo_write ⟨B, L, k, k, false⟩ s = (⟨B, L, k, k, false⟩, .ok 0) := by
      rw [fifo_write, if_neg (by simp), if_pos h0]
    have hrm := fifo_read_many_spec rs ⟨B, L, k, k, false⟩ hWF
      (by rw [hcont]; simp; omega)
    rw [hwr]
    exact ⟨by rw [h0], by rw [hrm.1, hcont, List.take_nil, hsnil]⟩
  · have hwa := fifo_writable_readable _ hWF
    have hcl := fifo_content_length _ hWF
    have hsp : s.length ≤ fifo_writable_at_all ⟨B, L, k, k, false⟩ := by
      have e1 : ((⟨B, L, k, k, false⟩ : FIFO)).length = L := rfl
      rw [hcont] at hcl
      simp only [List.length_nil] at hcl
      omega
    have hw := fifo_write_ok _ s hWF rfl h0 hsp
    have hrm := fifo_read_many_spec rs (fifo_write ⟨B, L, k, k, false⟩ s).1 hw.2.1
      (by rw [hw.2.2.1, hcont, List.nil_append]; omega)
    exact ⟨hw.1, by rw [hrm.1, hw.2.2.1, hcont, List.nil_append, hrs, List.take_length]⟩

theorem C1_fifo_write_read_roundtrip_witness :
    ([0, 0, 0, 0] : List Nat).length = 4 ∧ 3 < 4 ∧
    ([10, 20, 30] : List Nat).length ≤ 4 - 1 ∧
    ([2, 1] : List Nat).sum = ([10, 20, 30] : List Nat).length ∧
    ((fifo_write ⟨[0, 0, 0, 0], 4, 3, 3, false⟩ [10, 20, 30]).2
        = .ok ([10, 20, 30] : List Nat).length ∧
      (fifo_read_many (fifo_write ⟨[0, 0, 0, 0], 4, 3, 3, false⟩ [10, 20, 30]).1
        [2, 1]).2 = [10, 20, 30]) :=
  ⟨by decide, by decide, by decide, by decide,
    C1_fifo_write_read_roundtrip 4 3 [0, 0, 0, 0] [10, 20, 30] [2, 1]
      (by decide) (by decide) (by decide) (by decide)⟩

/-- C2: on a FIFO that is not shut down, a non-blocking write of `n > 0`
bytes fails with `E2BIG` when `n` exceeds the capacity `L-1`, fails with
`EWOULDBLOCK` when `n` fits the capacity but exceeds the free space
`L-1 - readable` at call time, and otherwise writes all `n` bytes and
returns `n`. -/
theorem C2_nonblocking_write_errors (f : FIFO) (data : List Nat)
    (hWF : f.WellFormed) (hsd : f.shutdown = false) (hn : data.length ≠ 0) :
    (data.length > f.length - 1 → fifo_write f data = (f, .error .E2BIG)) ∧
    (data.length ≤ f.length - 1 →
      data.length > f.length - 1 - fifo_readable_at_all f →
      fifo_write f data = (f, .error .EWOULDBLOCK)) ∧
    (data.length ≤ f.length - 1 - fifo_readable_at_all f →
      (fifo_write f data).2 = .ok data.length) := by
  have hwa := fifo_writable_readable f hWF
  have hrle := fifo_readable_le f hWF
  refine ⟨?_, ?_, ?_⟩
  · intro hbig
    rw [fifo_write, if_neg (by simp [hsd]), if_neg hn, if_pos hbig]
  · intro hle hfree
    rw [fifo_write, if_neg (by simp [hsd]), if_neg hn, if_neg (by omega),
      if_pos (by omega)]
  · intro hfit
    exact (fifo_write_ok f data hWF hsd hn (by omega)).1

theorem C2_nonblocking_write_errors_witness :
    (⟨[0, 0, 0, 0], 4, 0, 2, false⟩ : FIFO).WellFormed ∧
    (⟨[0, 0, 0, 0], 4, 0, 2, false⟩ : FIFO).shutdown = false ∧
    ([7] : List Nat).length ≠ 0 ∧
    ((([7] : List Nat).length > (4 : Nat) - 1 →
        fifo_write ⟨[0, 0, 0, 0], 4, 0, 2, false⟩ [7]
          = (⟨[0, 0, 0, 0], 4, 0, 2, false⟩, .error .E2BIG)) ∧
      (([7] : List Nat).length ≤ (4 : Nat) - 1 →
        ([7] : List Nat).length
          > (4 : Nat) - 1 - fifo_readable_at_all ⟨[0, 0, 0, 0], 4, 0, 2, false⟩ →
        fifo_write ⟨[0, 0, 0, 0], 4, 0, 2, false⟩ [7]
          = (⟨[0, 0, 0, 0], 4, 0, 2, false⟩, .error .EWOULDBLOCK)) ∧
      (([7] : List Nat).length
          ≤ (4 : Nat) - 1 - fifo_readable_at_all ⟨[0, 0, 0, 0], 4, 0, 2, false⟩ →
        (fifo_write ⟨[0, 0, 0, 0], 4, 0, 2, false⟩ [7]).2
          = .ok ([7] : List Nat).length)) :=
  ⟨by decide, rfl, by decide,
    C2_nonblocking_write_errors ⟨[0, 0, 0, 0], 4, 0, 2, false⟩ [7]
      (by decide) rfl (by decide)⟩

/-- C3: a `fifo_write` on a FIFO whose shutdown flag is set at entry fails
with `EPIPE` (blocking or not); a blocking writer that observes the shutdown
flag after waiting on a full FIFO fails with `EPIPE`; and a blocking
`fifo_read` on a shut-down FIFO with an empty buffer returns 0 bytes
(end-of-stream) instead of waiting. -/
theorem C3_shutdown_behaviour :
    (∀ (f : FIFO) (data : List Nat) (waits : List FIFO), f.shutdown = true →
      fifo_write f data = (f, .error .EPIPE) ∧
      fifo_write_blocking f data waits = (f, .error .EPIPE)) ∧
    (∀ (f : FIFO) (data : List Nat) (pre : List FIFO) (ws : FIFO)
        (rest : List FIFO),
      f.shutdown = false → data.length ≠ 0 → fifo_writable_at_all f = 0 →
      (∀ w ∈ pre, fifo_writable_at_all w = 0 ∧ w.shutdown = false) →
      ws.shutdown = true →
      (fifo_write_blocking f data (pre ++ ws :: rest)).2 = .error .EPIPE) ∧
    (∀ (f : FIFO) (n : Nat) (waits : List FIFO),
      f.shutdown = true → fifo_readable_at_all f = 0 →
      fifo_read f n true waits = (f, .ok [])) := by
  refine ⟨?_, ?_, ?_⟩
  · intro f data waits hsd
    constructor
    · rw [fifo_write, if_pos hsd]
    · rw [fifo_write_blocking, if_pos hsd]
  · intro f data pre ws rest hsd hn hfull hpre hws
    rw [fifo_write_blocking, if_neg (by simp [hsd]), if_neg hn]
    rw [fifo_write_blocking_wait_shutdown pre
      (data.length + (pre ++ ws :: rest).length + 1) f data 0 ws rest
      (by simp; omega) (by omega) hfull hpre hws]
  · intro f n waits hsd hempty
    by_cases h0 : n = 0
    · rw [fifo_read, if_pos h0]
    · rw [fifo_read, if_neg h0, if_pos ⟨by omega, hsd⟩]

theorem C3_shutdown_behaviour_witness :
    ((⟨[0, 0], 2, 0, 0, true⟩ : FIFO).shutdown = true ∧
      fifo_write ⟨[0, 0], 2, 0, 0, true⟩ [5]
        = (⟨[0, 0], 2, 0, 0, true⟩, .error .EPIPE) ∧
      fifo_write_blocking ⟨[0, 0], 2, 0, 0, true⟩ [5] []
        = (⟨[0, 0], 2, 0, 0, true⟩, .error .EPIPE)) ∧
    ((fifo_write_blocking ⟨[9, 0], 2, 0, 1, false⟩ [5]
        ([] ++ (⟨[9, 0], 2, 0, 1, true⟩ : FIFO) :: [])).2 = .error .EPIPE) ∧
    (fifo_read ⟨[0, 0], 2, 0, 0, true⟩ 1 true [] = (⟨[0, 0], 2, 0, 0, true⟩, .ok [])) := by
  refine ⟨⟨rfl, ?_, ?_⟩, ?_, ?_⟩
  · exact (C3_shutdown_behaviour.1 ⟨[0, 0], 2, 0, 0, true⟩ [5] [] rfl).1
  · exact (C3_shutdown_behaviour.1 ⟨[0, 0], 2, 0, 0, true⟩ [5] [] rfl).2
  · exact C3_shutdown_behaviour.2.1 ⟨[9, 0], 2, 0, 1, false⟩ [5] []
      ⟨[9, 0], 2, 0, 1, true⟩ [] rfl (by decide) (by decide)
      (by intro x hx; cases hx) rfl
  · exact C3_shutdown_behaviour.2.2 ⟨[0, 0], 2, 0, 0, true⟩ 1 [] rfl (by decide)

/-- C4, as stated, fails: after write 5 / read 5 on a length-8 FIFO, the
non-blocking write of 6 bytes does not fail with `EWOULDBLOCK` -- the free
space is 7 and `fifo_write` performs the two-region copy across the wrap
point, succeeding with return value 6. -/
theorem C4_counterexample :
    (fifo_write
        ((fifo_read
          ((fifo_write (fifo_create [0, 0, 0, 0, 0, 0, 0, 0] 8)
            [1, 2, 3, 4, 5]).1) 5 false []).1)
        [6, 7, 8, 9, 10, 11]).2 ≠ .error .EWOULDBLOCK := by
  decide

/-- C4 (amended): for a FIFO with buffer length 8, a non-blocking write of 5
bytes succeeds; a subsequent read of 5 bytes returns those 5 bytes; and a
subsequent non-blocking write of 6 bytes succeeds, returning 6, with the
data straddling the wrap point -- reading 6 bytes back yields it verbatim. -/
theorem C4_wraparound_scenario :
    (fifo_write (fifo_create [0, 0, 0, 0, 0, 0, 0, 0] 8) [1, 2, 3, 4, 5]).2
      = .ok 5 ∧
    (fifo_read ((fifo_write (fifo_create [0, 0, 0, 0, 0, 0, 0, 0] 8)
        [1, 2, 3, 4, 5]).1) 5 false []).2 = .ok [1, 2, 3, 4, 5] ∧
    (fifo_write
        ((fifo_read ((fifo_write (fifo_create [0, 0, 0, 0, 0, 0, 0, 0] 8)
          [1, 2, 3, 4, 5]).1) 5 false []).1)
        [6, 7, 8, 9, 10, 11]).2 = .ok 6 ∧
    (fifo_read
        ((fifo_write
          ((fifo_read ((fifo_write (fifo_create [0, 0, 0, 0, 0, 0, 0, 0] 8)
            [1, 2, 3, 4, 5]).1) 5 false []).1)
          [6, 7, 8, 9, 10, 11]).1) 6 false []).2 = .ok [6, 7, 8, 9, 10, 11] := by
  decide

/-- C10: non-blocking `fifo_write` is atomic: when it returns an error the
FIFO state (begin, end and buffer) is exactly as before the call, and when
it succeeds it returns exactly the full length, never a short write. -/
theorem C10_write_atomicity (f : FIFO) (data : List Nat)
    (hWF : f.WellFormed) (hn : data.length ≠ 0) :
    (∀ e, (fifo_write f data).2 = .error e → (fifo_write f data).1 = f) ∧
    (∀ m, (fifo_write f data).2 = .ok m → m = data.length) := by
  by_cases hsd : f.shutdown = true
  · rw [fifo_write, if_pos hsd]
    exact ⟨fun e _ => rfl, fun m h => nomatch h⟩
  · have hsd' : f.shutdown = false := by
      revert hsd
      cases f.shutdown <;> simp
    by_cases h2 : data.length > f.length - 1
    · rw [fifo_write, if_neg (by simp [hsd']), if_neg hn, if_pos h2]
      exact ⟨fun e _ => rfl, fun m h => nomatch h⟩
    · by_cases h3 : data.length > fifo_writable_at_all f
      · rw [fifo_write, if_neg (by simp [hsd']), if_neg hn, if_neg h2, if_pos h3]
        exact ⟨fun e _ => rfl, fun m h => nomatch h⟩
      · have hok := fifo_write_ok f data hWF hsd' hn (by omega)
        constructor
        · intro e he
          rw [hok.1] at he
          exact nomatch he
        · intro m hm
          rw [hok.1] at hm
          injection hm with h
          exact h.symm

theorem C10_write_atomicity_witness :
    (⟨[0, 0, 0], 3, 0, 0, false⟩ : FIFO).WellFormed ∧
    ([4, 5] : List Nat).length ≠ 0 ∧
    ((∀ e, (fifo_write ⟨[0, 0, 0], 3, 0, 0, false⟩ [4, 5]).2 = .error e →
        (fifo_write ⟨[0, 0, 0], 3, 0, 0, false⟩ [4, 5]).1 = ⟨[0, 0, 0], 3, 0, 0, false⟩) ∧
      (∀ m, (fifo_write ⟨[0, 0, 0], 3, 0, 0, false⟩ [4, 5]).2 = .ok m →
        m = ([4, 5] : List Nat).length)) :=
  ⟨by decide, by decide,
    C10_write_atomicity ⟨[0, 0, 0], 3, 0, 0, false⟩ [4, 5] (by decide) (by decide)⟩

/-! ### Writer (writer.c)

The buffered packet writer. Packets are opaque to the writer: it copies
them whole (`memcpy` of `packet->header.length` bytes into the queued slot)
and never inspects their contents, so they are modelled as opaque values.
The outcome of each `io_write` call on the underlying handle is an oracle
(`IOOutcome`), and the EVENT_WRITE registration performed through
`event_modify_source` is modelled as a boolean field of the writer. The
writer's logging-only fields (packet type name, signature functions,
recipient name) do not influence the modelled state and are dropped. -/

abbrev Packet := Nat

/-- Result of one `io_write` attempt: non-negative return, failure with
`EWOULDBLOCK` (`errno_would_block()` true), or failure with another error. -/
inductive IOOutcome where
  | ok
  | wouldBlock
  | err
deriving DecidableEq, Repr

structure Writer where
  backlog : List Packet
  dropped_packets : Nat
  registered_for_write : Bool
deriving DecidableEq, Repr

def MAX_QUEUED_WRITES : Nat := 32768

/-- Modelled from the spec: `queue_pop` (queue.c, which is not among the
sources) removes the oldest element of the backlog, its head. -/
def queue_pop (q : List Packet) : List Packet := q.drop 1

/-- Modelled from the spec: `queue_push` (queue.c, which is not among the
sources) appends a slot at the tail of the backlog, into which the packet is
then copied; allocation failure is not modelled. -/
def queue_push (q : List Packet) (p : Packet) : List Packet := q ++ [p]

/-- Embeds the drop loop of `writer_push_packet_to_backlog` (writer.c lines
95-97): `queue_pop` the oldest packet while the backlog is at or above
capacity. -/
def writer_backlog_pop_loop : List Packet → List Packet
  | [] => []
  | p :: rest =>
    if (p :: rest).length ≥ MAX_QUEUED_WRITES then writer_backlog_pop_loop rest
    else p :: rest

/-- Embeds `writer_push_packet_to_backlog` (writer.c lines 75-125): when the
backlog is at capacity, account `count - MAX_QUEUED_WRITES + 1` dropped
packets and pop that many oldest entries; push the new packet; when the
backlog count just became 1, register for EVENT_WRITE. -/
def writer_push_packet_to_backlog (w : Writer) (p : Packet) : Writer :=
  let w1 :=
    if w.backlog.length ≥ MAX_QUEUED_WRITES then
      { w with
        dropped_packets :=
          w.dropped_packets + (w.backlog.length - MAX_QUEUED_WRITES + 1),
        backlog := writer_backlog_pop_loop w.backlog }
    else w
  let w2 := { w1 with backlog := queue_push w1.backlog p }
  if w2.backlog.length = 1 then { w2 with registered_for_write := true } else w2

/-- Embeds `writer_handle_write` (writer.c lines 34-73), the drain callback:
nothing to do on an empty backlog; on a failed `io_write` the recipient is
disconnected and the state left as is; on success pop the head and, when the
backlog just became empty, deregister from EVENT_WRITE. -/
def writer_handle_write (w : Writer) (outcome : IOOutcome) : Writer :=
  if w.backlog.length = 0 then w
  else if outcome = .ok then
    let w1 := { w with backlog := queue_pop w.backlog }
    if w1.backlog.length = 0 then { w1 with registered_for_write := false } else w1
  else w

/-- Embeds the writer state set up by `writer_create` (writer.c lines
127-152): empty backlog, no dropped packets, not registered for write. -/
def writer_create : Writer :=
  { backlog := [], dropped_packets := 0, registered_for_write := false }

/-- Embeds `writer_write` (writer.c lines 171-206): with an empty backlog,
try a direct `io_write` (0 on success, -1 with recipient disconnect on a
hard error, enqueue on `EWOULDBLOCK`); with a non-empty backlog, enqueue
without touching the handle. Returns 1 when the packet was enqueued. -/
def writer_write (w : Writer) (p : Packet) (outcome : IOOutcome) : Writer × Int :=
  if w.backlog.length = 0 then
    match outcome with
    | .ok => (w, 0)
    | .err => (w, -1)
    | .wouldBlock => (writer_push_packet_to_backlog w p, 1)
  else (writer_push_packet_to_backlog w p, 1)

/-- A burst of `writer_write` calls, one oracle outcome per call (consulted
only when the call attempts a direct write). Returns the final writer and
the number of direct-write successes (calls returning 0). -/
def writer_burst (w : Writer) (calls : List (Packet × IOOutcome)) : Writer × Nat :=
  match calls with
  | [] => (w, 0)
  | c :: rest =>
    let r := writer_write w c.1 c.2
    let t := writer_burst r.1 rest
    (t.1, (if r.2 = 0 then 1 else 0) + t.2)

theorem writer_backlog_pop_loop_eq_drop (l : List Packet) :
    writer_backlog_pop_loop l = l.drop (l.length + 1 - MAX_QUEUED_WRITES) := by
  induction l with
  | nil => rw [writer_backlog_pop_loop, List.drop_nil]
  | cons p rest ih =>
    rw [writer_backlog_pop_loop]
    by_cases h : (p :: rest).length ≥ MAX_QUEUED_WRITES
    · rw [if_pos h, ih]
      rw [List.length_cons] at h ⊢
      rw [show rest.length + 1 + 1 - MAX_QUEUED_WRITES
          = (rest.length + 1 - MAX_QUEUED_WRITES) + 1 from by omega]
      rw [List.drop_succ_cons]
    · rw [if_neg h]
      rw [List.length_cons] at h ⊢
      rw [show rest.length + 1 + 1 - MAX_QUEUED_WRITES = 0 from by omega,
        List.drop_zero]

/-- The backlog count after `writer_push_packet_to_backlog`: capped pushes
land exactly at capacity, ordinary pushes grow the count by one. -/
theorem writer_push_count (w : Writer) (p : Packet) :
    (writer_push_packet_to_backlog w p).backlog.length
      = if w.backlog.length ≥ MAX_QUEUED_WRITES then MAX_QUEUED_WRITES
        else w.backlog.length + 1 := by
  have hMAX : MAX_QUEUED_WRITES = 32768 := rfl
  unfold writer_push_packet_to_backlog queue_push
  by_cases h : w.backlog.length ≥ MAX_QUEUED_WRITES
  · rw [if_pos h]
    have hlen : (writer_backlog_pop_loop w.backlog ++ [p]).length
        = MAX_QUEUED_WRITES := by
      rw [List.length_append, writer_backlog_pop_loop_eq_drop, List.length_drop]
      simp only [List.length_cons, List.length_nil]
      omega
    simp only [hlen]
    rw [if_neg (show ¬ MAX_QUEUED_WRITES = 1 from by omega), if_pos h]
    exact hlen
  · rw [if_neg h]
    have hlen : (w.backlog ++ [p]).length = w.backlog.length + 1 := by
      simp
    simp only [hlen]
    by_cases h0 : w.backlog.length + 1 = 1
    · rw [if_pos h0, if_neg h]
      exact hlen
    · rw [if_neg h0, if_neg h]
      exact hlen

/-- The drop accounting of `writer_push_packet_to_backlog`. -/
theorem writer_push_dropped (w : Writer) (p : Packet) :
    (writer_push_packet_to_backlog w p).dropped_packets
      = if w.backlog.length ≥ MAX_QUEUED_WRITES then
          w.dropped_packets + (w.backlog.length - MAX_QUEUED_WRITES + 1)
        else w.dropped_packets := by
  unfold writer_push_packet_to_backlog queue_push
  by_cases h : w.backlog.length ≥ MAX_QUEUED_WRITES
  · rw [if_pos h, if_pos h]
    by_cases h1 : (writer_backlog_pop_loop w.backlog ++ [p]).length = 1
    · rw [if_pos h1]
    · rw [if_neg h1]
  · rw [if_neg h, if_neg h]
    by_cases h1 : (w.backlog ++ [p]).length = 1
    · rw [if_pos h1]
    · rw [if_neg h1]

/-- The registration flag after `writer_push_packet_to_backlog`: it is set
exactly by the push that makes the count 1, i.e. onto an empty backlog. -/
theorem writer_push_registered (w : Writer) (p : Packet) :
    (writer_push_packet_to_backlog w p).registered_for_write
      = if w.backlog.length = 0 then true else w.registered_for_write := by
  have hMAX : MAX_QUEUED_WRITES = 32768 := rfl
  unfold writer_push_packet_to_backlog queue_push
  by_cases h : w.backlog.length ≥ MAX_QUEUED_WRITES
  · rw [if_pos h]
    have hlen : (writer_backlog_pop_loop w.backlog ++ [p]).length
        = MAX_QUEUED_WRITES := by
      rw [List.length_append, writer_backlog_pop_loop_eq_drop, List.length_drop]
      simp only [List.length_cons, List.length_nil]
      omega
    simp only [hlen]
    rw [if_neg (show ¬ MAX_QUEUED_WRITES = 1 from by omega),
      if_neg (show ¬ w.backlog.length = 0 from by omega)]
  · rw [if_neg h]
    have hlen : (w.backlog ++ [p]).length = w.backlog.length + 1 := by
      simp
    simp only [hlen]
    by_cases h0 : w.backlog.length = 0
    · rw [if_pos (show w.backlog.length + 1 = 1 from by omega), if_pos h0]
    · rw [if_neg (show ¬ w.backlog.length + 1 = 1 from by omega), if_neg h0]

/-- The backlog contents after `writer_push_packet_to_backlog`: drop the
oldest entries if at capacity, then append the new packet. -/
theorem writer_push_backlog (w : Writer) (p : Packet) :
    (writer_push_packet_to_backlog w p).backlog
      = (if w.backlog.length ≥ MAX_QUEUED_WRITES then
          writer_backlog_pop_loop w.backlog else w.backlog) ++ [p] := by
  unfold writer_push_packet_to_backlog queue_push
  by_cases h : w.backlog.length ≥ MAX_QUEUED_WRITES
  · rw [if_pos h, if_pos h]
    by_cases h1 : (writer_backlog_pop_loop w.backlog ++ [p]).length = 1
    · rw [if_pos h1]
    · rw [if_neg h1]
  · rw [if_neg h, if_neg h]
    by_cases h1 : (w.backlog ++ [p]).length = 1
    · rw [if_pos h1]
    · rw [if_neg h1]

/-- The writer state resulting from `writer_write` is either unchanged (a
direct write, successful or failed hard) or the pushed state. -/
theorem writer_write_fst (w : Writer) (p : Packet) (o : IOOutcome) :
    (writer_write w p o).1 = w ∨
    (writer_write w p o).1 = writer_push_packet_to_backlog w p := by
  rw [writer_write.eq_def]
  by_cases hempty : w.backlog.length = 0
  · rw [if_pos hempty]
    cases o
    · exact Or.inl rfl
    · exact Or.inr rfl
    · exact Or.inl rfl
  · rw [if_neg hempty]
    exact Or.inr rfl

/-- A push keeps the backlog within capacity. -/
theorem writer_push_capped (w : Writer) (p : Packet)
    (hcap : w.backlog.length ≤ MAX_QUEUED_WRITES) :
    (writer_push_packet_to_backlog w p).backlog.length ≤ MAX_QUEUED_WRITES := by
  rw [writer_push_count]
  by_cases h : w.backlog.length ≥ MAX_QUEUED_WRITES
  · rw [if_pos h]
  · rw [if_neg h]
    omega

/-- Any burst of `writer_write` calls keeps the backlog within capacity. -/
theorem writer_burst_bounded :
    ∀ (calls : List (Packet × IOOutcome)) (w : Writer),
    w.backlog.length ≤ MAX_QUEUED_WRITES →
    (writer_burst w calls).1.backlog.length ≤ MAX_QUEUED_WRITES := by
  intro calls
  induction calls with
  | nil =>
    intro w hcap
    exact hcap
  | cons c rest ih =>
    intro w hcap
    show (writer_burst (writer_write w c.1 c.2).1 rest).1.backlog.length
      ≤ MAX_QUEUED_WRITES
    rcases writer_write_fst w c.1 c.2 with h | h
    · rw [h]
      exact ih w hcap
    · rw [h]
      exact ih _ (writer_push_capped w c.1 hcap)

/-- Accounting invariant for a burst of writes without hard I/O errors:
every submitted packet is direct-written, still enqueued, or dropped, and
the backlog never exceeds the capacity. -/
theorem writer_burst_accounting :
    ∀ (calls : List (Packet × IOOutcome)) (w : Writer),
    (∀ c ∈ calls, c.2 ≠ IOOutcome.err) →
    w.backlog.length ≤ MAX_QUEUED_WRITES →
    (writer_burst w calls).1.backlog.length
        + (writer_burst w calls).1.dropped_packets + (writer_burst w calls).2
      = w.backlog.length + w.dropped_packets + calls.length ∧
    (writer_burst w calls).1.backlog.length ≤ MAX_QUEUED_WRITES := by
  intro calls
  induction calls with
  | nil =>
    intro w hok hcap
    rw [writer_burst]
    simpa using hcap
  | cons c rest ih =>
    intro w hok hcap
    have hMAX : MAX_QUEUED_WRITES = 32768 := rfl
    have hrest : ∀ x ∈ rest, x.2 ≠ IOOutcome.err :=
      fun x hx => hok x (List.mem_cons_of_mem _ hx)
    have hpushc := writer_push_count w c.1
    have hpushd := writer_push_dropped w c.1
    have hpushcap : (writer_push_packet_to_backlog w c.1).backlog.length
        ≤ MAX_QUEUED_WRITES := by
      rw [hpushc]
      by_cases h : w.backlog.length ≥ MAX_QUEUED_WRITES
      · rw [if_pos h]
      · rw [if_neg h]
        omega
    have hpushsum : (writer_push_packet_to_backlog w c.1).backlog.length
          + (writer_push_packet_to_backlog w c.1).dropped_packets
        = w.backlog.length + w.dropped_packets + 1 := by
      rw [hpushc, hpushd]
      by_cases h : w.backlog.length ≥ MAX_QUEUED_WRITES
      · rw [if_pos h, if_pos h]
        omega
      · rw [if_neg h, if_neg h]
        omega
    rw [writer_burst]
    by_cases hempty : w.backlog.length = 0
    · match hc2 : c.2 with
      | .ok =>
        have hwr : writer_write w c.1 IOOutcome.ok = (w, 0) := by
          rw [writer_write.eq_def, if_pos hempty]
        rw [hwr]
        have := ih w hrest hcap
        simp only [List.length_cons]
        constructor
        · simp
          omega
        · exact this.2
      | .err => exact absurd hc2 (hok c (List.mem_cons_self c rest))
      | .wouldBlock =>
        have hwr : writer_write w c.1 IOOutcome.wouldBlock
            = (writer_push_packet_to_backlog w c.1, 1) := by
          rw [writer_write.eq_def, if_pos hempty]
        rw [hwr]
        have := ih (writer_push_packet_to_backlog w c.1) hrest hpushcap
        simp only [List.length_cons]
        constructor
        · simp
          omega
        · exact this.2
    · have hwr : writer_write w c.1 c.2
          = (writer_push_packet_to_backlog w c.1, 1) := by
        rw [writer_write.eq_def, if_neg hempty]
      rw [hwr]
      have := ih (writer_push_packet_to_backlog w c.1) hrest hpushcap
      simp only [List.length_cons]
      constructor
      · simp
        omega
      · exact this.2

/-- C5: the drop policy and accounting of the writer backlog. -/
theorem C5_writer_drop_accounting :
    (∀ (w : Writer) (p : Packet), w.backlog.length ≥ MAX_QUEUED_WRITES →
      (writer_push_packet_to_backlog w p).backlog
        = w.backlog.drop (w.backlog.length - MAX_QUEUED_WRITES + 1) ++ [p] ∧
      (writer_push_packet_to_backlog w p).dropped_packets
        = w.dropped_packets + (w.backlog.length - MAX_QUEUED_WRITES + 1) ∧
      (writer_push_packet_to_backlog w p).backlog.length = MAX_QUEUED_WRITES) ∧
    (∀ (w : Writer) (calls : List (Packet × IOOutcome)),
      w.backlog.length ≤ MAX_QUEUED_WRITES →
      (writer_burst w calls).1.backlog.length ≤ MAX_QUEUED_WRITES) ∧
    (∀ (calls : List (Packet × IOOutcome)),
      (∀ c ∈ calls, c.2 ≠ IOOutcome.err) →
      calls.length = (writer_burst writer_create calls).2
        + (writer_burst writer_create calls).1.backlog.length
        + (writer_burst writer_create calls).1.dropped_packets) := by
  have hMAX : MAX_QUEUED_WRITES = 32768 := rfl
  refine ⟨?_, ?_, ?_⟩
  · intro w p h
    have hc := writer_push_count w p
    have hd := writer_push_dropped w p
    rw [if_pos h] at hc hd
    refine ⟨?_, hd, hc⟩
    rw [writer_push_backlog, if_pos h, writer_backlog_pop_loop_eq_drop,
      show w.backlog.length + 1 - MAX_QUEUED_WRITES
        = w.backlog.length - MAX_QUEUED_WRITES + 1 from by omega]
  · intro w calls hcap
    exact writer_burst_bounded calls w hcap
  · intro calls hok
    have := writer_burst_accounting calls writer_create hok (by simp [writer_create])
    have h0 : writer_create.backlog.length = 0 := rfl
    have h1 : writer_create.dropped_packets = 0 := rfl
    omega

theorem C5_writer_drop_accounting_witness :
    (⟨List.replicate 32768 (0 : Packet), 5, true⟩ : Writer).backlog.length
        ≥ MAX_QUEUED_WRITES ∧
    ((writer_push_packet_to_backlog
          ⟨List.replicate 32768 (0 : Packet), 5, true⟩ 9).backlog
        = (⟨List.replicate 32768 (0 : Packet), 5, true⟩ : Writer).backlog.drop
            ((⟨List.replicate 32768 (0 : Packet), 5, true⟩ : Writer).backlog.length
              - MAX_QUEUED_WRITES + 1) ++ [9] ∧
      (writer_push_packet_to_backlog
          ⟨List.replicate 32768 (0 : Packet), 5, true⟩ 9).dropped_packets
        = (⟨List.replicate 32768 (0 : Packet), 5, true⟩ : Writer).dropped_packets
            + ((⟨List.replicate 32768 (0 : Packet), 5, true⟩ : Writer).backlog.length
              - MAX_QUEUED_WRITES + 1) ∧
      (writer_push_packet_to_backlog
          ⟨List.replicate 32768 (0 : Packet), 5, true⟩ 9).backlog.length
        = MAX_QUEUED_WRITES) ∧
    (writer_burst writer_create
        [(1, IOOutcome.wouldBlock), (2, IOOutcome.ok)]).1.backlog.length
      ≤ MAX_QUEUED_WRITES ∧
    ((∀ c ∈ [((1 : Packet), IOOutcome.wouldBlock), (2, IOOutcome.ok)],
        c.2 ≠ IOOutcome.err) ∧
      [((1 : Packet), IOOutcome.wouldBlock), (2, IOOutcome.ok)].length
        = (writer_burst writer_create
            [(1, IOOutcome.wouldBlock), (2, IOOutcome.ok)]).2
          + (writer_burst writer_create
              [(1, IOOutcome.wouldBlock), (2, IOOutcome.ok)]).1.backlog.length
          + (writer_burst writer_create
              [(1, IOOutcome.wouldBlock), (2, IOOutcome.ok)]).1.dropped_packets) :=
  ⟨Nat.le_of_eq (List.length_replicate 32768 0).symm,
    C5_writer_drop_accounting.1 ⟨List.replicate 32768 (0 : Packet), 5, true⟩ 9
      (Nat.le_of_eq (List.length_replicate 32768 0).symm),
    C5_writer_drop_accounting.2.1 writer_create
      [(1, IOOutcome.wouldBlock), (2, IOOutcome.ok)] (by decide),
    ⟨by decide,
      C5_writer_drop_accounting.2.2
        [(1, IOOutcome.wouldBlock), (2, IOOutcome.ok)] (by decide)⟩⟩

/-- The C6 invariant: the underlying handle is registered for EVENT_WRITE
exactly when the backlog is non-empty. -/
def Writer.RegInvariant (w : Writer) : Prop :=
  w.registered_for_write = true ↔ w.backlog ≠ []

instance (w : Writer) : Decidable w.RegInvariant := by
  unfold Writer.RegInvariant
  infer_instance

theorem writer_push_reg_invariant (w : Writer) (p : Packet)
    (h : w.RegInvariant) : (writer_push_packet_to_backlog w p).RegInvariant := by
  unfold Writer.RegInvariant at *
  rw [writer_push_registered]
  have hne : (writer_push_packet_to_backlog w p).backlog ≠ [] := by
    rw [writer_push_backlog]
    simp
  by_cases h0 : w.backlog.length = 0
  · rw [if_pos h0]
    exact ⟨fun _ => hne, fun _ => rfl⟩
  · rw [if_neg h0]
    have hwne : w.backlog ≠ [] := fun hnil => h0 (by rw [hnil]; rfl)
    exact ⟨fun _ => hne, fun _ => h.mpr hwne⟩

/-- C6: the write-readiness registration invariant: it holds for a freshly
created writer, is preserved by `writer_write` (any outcome) and by the
drain callback `writer_handle_write` (any outcome); moreover the enqueue
path registers exactly when the backlog count goes 0 to 1 and the drain
callback deregisters exactly when the count returns to 0. -/
theorem C6_registration_invariant :
    writer_create.RegInvariant ∧
    (∀ (w : Writer) (p : Packet) (o : IOOutcome),
      w.RegInvariant → ((writer_write w p o).1).RegInvariant) ∧
    (∀ (w : Writer) (o : IOOutcome),
      w.RegInvariant → (writer_handle_write w o).RegInvariant) ∧
    (∀ (w : Writer) (p : Packet), w.backlog = [] →
      (writer_push_packet_to_backlog w p).registered_for_write = true) ∧
    (∀ (w : Writer) (p : Packet), w.backlog ≠ [] →
      (writer_push_packet_to_backlog w p).registered_for_write
        = w.registered_for_write) ∧
    (∀ (w : Writer), w.backlog.length = 1 →
      (writer_handle_write w IOOutcome.ok).registered_for_write = false) ∧
    (∀ (w : Writer), 2 ≤ w.backlog.length →
      (writer_handle_write w IOOutcome.ok).registered_for_write
        = w.registered_for_write) := by
  refine ⟨by decide, ?_, ?_, ?_, ?_, ?_, ?_⟩
  · intro w p o h
    rcases writer_write_fst w p o with heq | heq
    · rw [heq]
      exact h
    · rw [heq]
      exact writer_push_reg_invariant w p h
  · intro w o h
    rw [writer_handle_write]
    by_cases h0 : w.backlog.length = 0
    · rw [if_pos h0]
      exact h
    · rw [if_neg h0]
      by_cases hok : o = IOOutcome.ok
      · rw [if_pos hok]
        by_cases h1 : ({ w with backlog := queue_pop w.backlog } : Writer).backlog.length = 0
        · rw [if_pos h1]
          unfold Writer.RegInvariant
          constructor
          · intro hx
            exact absurd hx (by simp)
          · intro hx
            exact absurd (List.length_eq_zero.mp h1) hx
        · rw [if_neg h1]
          unfold Writer.RegInvariant at h ⊢
          have hwne : w.backlog ≠ [] := fun hnil => h0 (by rw [hnil]; rfl)
          exact ⟨fun _ => fun hnil => h1 (by rw [hnil]; rfl), fun _ => h.mpr hwne⟩
      · rw [if_neg hok]
        exact h
  · intro w p hnil
    rw [writer_push_registered, if_pos (by rw [hnil]; rfl)]
  · intro w p hne
    rw [writer_push_registered,
      if_neg (fun h0 => hne (List.length_eq_zero.mp h0))]
  · intro w h1
    rw [writer_handle_write, if_neg (by omega),
      if_pos (rfl : IOOutcome.ok = IOOutcome.ok)]
    have hpop : ({ w with backlog := queue_pop w.backlog } : Writer).backlog.length = 0 := by
      show (w.backlog.drop 1).length = 0
      rw [List.length_drop]
      omega
    rw [if_pos hpop]
  · intro w h2
    rw [writer_handle_write, if_neg (by omega),
      if_pos (rfl : IOOutcome.ok = IOOutcome.ok)]
    have hpop : ¬ ({ w with backlog := queue_pop w.backlog } : Writer).backlog.length = 0 := by
      show ¬ (w.backlog.drop 1).length = 0
      rw [List.length_drop]
      omega
    rw [if_neg hpop]

theorem C6_registration_invariant_witness :
    writer_create.RegInvariant ∧
    (⟨[3], 0, true⟩ : Writer).RegInvariant ∧
    ((writer_write ⟨[3], 0, true⟩ 4 IOOutcome.wouldBlock).1).RegInvariant ∧
    (writer_handle_write ⟨[3], 0, true⟩ IOOutcome.ok).RegInvariant ∧
    (writer_push_packet_to_backlog writer_create 7).registered_for_write = true ∧
    (writer_push_packet_to_backlog ⟨[3], 0, true⟩ 7).registered_for_write
      = (⟨[3], 0, true⟩ : Writer).registered_for_write ∧
    (writer_handle_write ⟨[3], 0, true⟩ IOOutcome.ok).registered_for_write = false ∧
    (writer_handle_write ⟨[3, 4], 0, true⟩ IOOutcome.ok).registered_for_write
      = (⟨[3, 4], 0, true⟩ : Writer).registered_for_write :=
  ⟨C6_registration_invariant.1, by decide,
    C6_registration_invariant.2.1 ⟨[3], 0, true⟩ 4 IOOutcome.wouldBlock (by decide),
    C6_registration_invariant.2.2.1 ⟨[3], 0, true⟩ IOOutcome.ok (by decide),
    C6_registration_invariant.2.2.2.1 writer_create 7 rfl,
    C6_registration_invariant.2.2.2.2.1 ⟨[3], 0, true⟩ 7 (by decide),
    C6_registration_invariant.2.2.2.2.2.1 ⟨[3], 0, true⟩ (by decide),
    C6_registration_invariant.2.2.2.2.2.2 ⟨[3, 4], 0, true⟩ (by decide)⟩

/-! ### Logger output rotation (log.c)

The rotation-relevant logger globals guarded by `_output_mutex`: whether an
output sink is set (`_output != NULL`), its tracked byte count
(`_output_size`, `-1` when not tracked), whether a rotate function is
registered (`_rotate != NULL`), and the post-rotate countdown. The identity
of the sink and of the rotate function does not influence this logic and is
abstracted to presence; `io_write`, the rotate callback's return value and
`io_status` are oracles. -/

structure LogOutputState where
  hasOutput : Bool
  output_size : Int
  hasRotate : Bool
  rotate_countdown : Int
deriving DecidableEq, Repr

def MAX_OUTPUT_SIZE : Int := 5 * 1024 * 1024

def MAX_ROTATE_COUNTDOWN : Int := 50

/-- Embeds `log_set_output_unlocked` (log.c lines 255-270): install the
sink, reset the size to -1 and the countdown to `MAX_ROTATE_COUNTDOWN`, and
when both a sink and a rotate function are present take the size from
`io_status` (`statusSize` oracle: `none` when the status call fails). -/
def log_set_output_unlocked (hasOutput hasRotate : Bool)
    (statusSize : Option Int) : LogOutputState :=
  { hasOutput := hasOutput,
    hasRotate := hasRotate,
    rotate_countdown := MAX_ROTATE_COUNTDOWN,
    output_size :=
      if hasOutput ∧ hasRotate then
        match statusSize with
        | some s => s
        | none => -1
      else -1 }

/-- Embeds the `_output_size` update of `log_output` (log.c lines 288-290).
`primaryWrite` is `none` when no primary write happens (primary bit clear or
no sink) and `some r` when `io_write` on the sink returned `r`. -/
def log_output_size_update (st : LogOutputState) (primaryWrite : Option Int) : Int :=
  match primaryWrite with
  | some r => if st.output_size ≥ 0 ∧ r ≥ 0 then st.output_size + r else st.output_size
  | none => st.output_size

/-- Embeds the per-entry output/rotate logic of `log_forward` (log.c lines
343-363): write the entry (updating the byte count), decrement the countdown
while positive, and when a rotate function is registered, the countdown is
at zero and the byte count has reached `MAX_OUTPUT_SIZE`, invoke the rotate
callback: on failure output is disabled, otherwise sink and rotate function
are re-installed; either way through `log_set_output_unlocked`. Returns the
new state and whether the rotate callback was invoked. The informational
message a successful rotate may emit afterwards (log.c lines 365-388) only
writes to the new sink and touches neither countdown nor rotation count. -/
def log_forward_entry_step (st : LogOutputState) (primaryWrite : Option Int)
    (rotateOk : Bool) (newStatusSize : Option Int) : LogOutputState × Bool :=
  let size1 := log_output_size_update st primaryWrite
  let cd1 := if st.rotate_countdown > 0 then st.rotate_countdown - 1
    else st.rotate_countdown
  if st.hasRotate ∧ cd1 ≤ 0 ∧ size1 ≥ MAX_OUTPUT_SIZE then
    if rotateOk then (log_set_output_unlocked st.hasOutput st.hasRotate newStatusSize, true)
    else (log_set_output_unlocked false false none, true)
  else ({ st with output_size := size1, rotate_countdown := cd1 }, false)

/-- A sequence of entries processed by the forward thread, with one oracle
triple (io_write result, rotate result, io_status result) per entry.
Returns the final state and the number of rotate invocations. -/
def log_forward_entries (st : LogOutputState)
    (steps : List (Option Int × Bool × Option Int)) : LogOutputState × Nat :=
  match steps with
  | [] => (st, 0)
  | s :: rest =>
    let r := log_forward_entry_step st s.1 s.2.1 s.2.2
    let t := log_forward_entries r.1 rest
    (t.1, (if r.2 then 1 else 0) + t.2)

/-- The rotate callback fires exactly when a rotate function is registered,
the decremented countdown has reached zero, and the updated byte count is at
least `MAX_OUTPUT_SIZE`. -/
theorem log_forward_entry_step_rotated (st : LogOutputState)
    (pw : Option Int) (rok : Bool) (nss : Option Int) :
    (log_forward_entry_step st pw rok nss).2 = true ↔
      (st.hasRotate = true ∧ st.rotate_countdown ≤ 1 ∧
        log_output_size_update st pw ≥ MAX_OUTPUT_SIZE) := by
  have hcd : ((if st.rotate_countdown > 0 then st.rotate_countdown - 1
      else st.rotate_countdown) ≤ 0) ↔ st.rotate_countdown ≤ 1 := by
    by_cases h : st.rotate_countdown > 0
    · rw [if_pos h]
      omega
    · rw [if_neg h]
      omega
  unfold log_forward_entry_step
  by_cases hc : (st.hasRotate = true ∧
      (if st.rotate_countdown > 0 then st.rotate_countdown - 1
        else st.rotate_countdown) ≤ 0 ∧
      log_output_size_update st pw ≥ MAX_OUTPUT_SIZE)
  · rw [if_pos hc]
    have h2 : ((if rok then
        (log_set_output_unlocked st.hasOutput st.hasRotate nss, true)
        else (log_set_output_unlocked false false none, true)) :
          LogOutputState × Bool).2 = true := by
      by_cases hr : rok = true
      · rw [if_pos hr]
      · rw [if_neg hr]
    rw [h2]
    exact ⟨fun _ => ⟨hc.1, hcd.mp hc.2.1, hc.2.2⟩, fun _ => rfl⟩
  · rw [if_neg hc]
    constructor
    · intro h
      exact absurd h (by simp)
    · intro h
      exact absurd ⟨h.1, hcd.mpr h.2.1, h.2.2⟩ hc

/-- The countdown after one forwarded entry: reset to 50 by a rotation,
otherwise decremented exactly while positive. -/
theorem log_forward_entry_step_countdown (st : LogOutputState)
    (pw : Option Int) (rok : Bool) (nss : Option Int) :
    (log_forward_entry_step st pw rok nss).1.rotate_countdown
      = if (log_forward_entry_step st pw rok nss).2 then MAX_ROTATE_COUNTDOWN
        else if st.rotate_countdown > 0 then st.rotate_countdown - 1
        else st.rotate_countdown := by
  unfold log_forward_entry_step
  by_cases hc : (st.hasRotate = true ∧
      (if st.rotate_countdown > 0 then st.rotate_countdown - 1
        else st.rotate_countdown) ≤ 0 ∧
      log_output_size_update st pw ≥ MAX_OUTPUT_SIZE)
  · rw [if_pos hc]
    by_cases hr : rok = true
    · rw [if_pos hr, if_pos rfl]
      rfl
    · rw [if_neg hr, if_pos rfl]
      rfl
  · rw [if_neg hc]
    simp

/-- No rotation can fire while the countdown stays above the number of
remaining entries. -/
theorem log_forward_entries_quiet :
    ∀ (steps : List (Option Int × Bool × Option Int)) (st : LogOutputState),
    (steps.length : Int) < st.rotate_countdown →
    (log_forward_entries st steps).2 = 0 := by
  intro steps
  induction steps with
  | nil =>
    intro st h
    rfl
  | cons s rest ih =>
    intro st h
    have hlen : ((s :: rest).length : Int) = (rest.length : Int) + 1 := by
      simp
    have hnorot : (log_forward_entry_step st s.1 s.2.1 s.2.2).2 = false := by
      by_cases hx : (log_forward_entry_step st s.1 s.2.1 s.2.2).2 = true
      · have := (log_forward_entry_step_rotated st s.1 s.2.1 s.2.2).mp hx
        omega
      · simpa using hx
    have hcd := log_forward_entry_step_countdown st s.1 s.2.1 s.2.2
    rw [hnorot] at hcd
    simp only [if_false, Bool.false_eq_true] at hcd
    show (if (log_forward_entry_step st s.1 s.2.1 s.2.2).2 then 1 else 0)
      + (log_forward_entries (log_forward_entry_step st s.1 s.2.1 s.2.2).1 rest).2 = 0
    rw [hnorot, if_neg (by simp)]
    rw [ih (log_forward_entry_step st s.1 s.2.1 s.2.2).1 (by rw [hcd]; omega)]

/-- C7 (amended): each forwarded entry decrements the rotate countdown while
positive; the rotate callback is invoked when and only when a rotate
function is registered, the countdown has hit zero and the tracked byte
count has reached `MAX_OUTPUT_SIZE` (5 MiB, inclusive); a rotation resets
the countdown to 50, so the next 49 forwarded entries never invoke the
rotate callback. -/
theorem C7_rotate_countdown :
    (∀ (st : LogOutputState) (pw : Option Int) (rok : Bool) (nss : Option Int),
      (log_forward_entry_step st pw rok nss).1.rotate_countdown
        = if (log_forward_entry_step st pw rok nss).2 then MAX_ROTATE_COUNTDOWN
          else if st.rotate_countdown > 0 then st.rotate_countdown - 1
          else st.rotate_countdown) ∧
    (∀ (st : LogOutputState) (pw : Option Int) (rok : Bool) (nss : Option Int),
      (log_forward_entry_step st pw rok nss).2 = true ↔
        (st.hasRotate = true ∧ st.rotate_countdown ≤ 1 ∧
          log_output_size_update st pw ≥ MAX_OUTPUT_SIZE)) ∧
    (∀ (st : LogOutputState) (steps : List (Option Int × Bool × Option Int)),
      st.rotate_countdown = MAX_ROTATE_COUNTDOWN → steps.length ≤ 49 →
      (log_forward_entries st steps).2 = 0) := by
  refine ⟨log_forward_entry_step_countdown, log_forward_entry_step_rotated, ?_⟩
  intro st steps hcd hlen
  apply log_forward_entries_quiet
  rw [hcd]
  show (steps.length : Int) < MAX_ROTATE_COUNTDOWN
  have h1 : (steps.length : Int) ≤ 49 := by exact_mod_cast hlen
  have h2 : MAX_ROTATE_COUNTDOWN = 50 := rfl
  omega

/-- C7, as stated, fails at the boundary: with the countdown at zero and the
tracked byte count exactly `MAX_OUTPUT_SIZE` (5 MiB), the code invokes the
rotate callback (`_output_size >= MAX_OUTPUT_SIZE`, log.c line 353) even
though the byte count does not exceed 5 MiB. -/
theorem C7_counterexample :
    (log_forward_entry_step ⟨true, 5242880, true, 0⟩ none true (some 0)).2 = true ∧
    ¬ ((5242880 : Int) > MAX_OUTPUT_SIZE) := by
  constructor
  · rfl
  · decide

theorem C7_rotate_countdown_witness :
    ((log_forward_entry_step ⟨true, 10, true, 3⟩ (some 4) true (some 0)).1.rotate_countdown
      = if (log_forward_entry_step ⟨true, 10, true, 3⟩ (some 4) true (some 0)).2
          then MAX_ROTATE_COUNTDOWN
        else if (3 : Int) > 0 then (3 : Int) - 1 else (3 : Int)) ∧
    ((log_forward_entry_step ⟨true, 5242880, true, 1⟩ none true (some 0)).2 = true ↔
      ((⟨true, 5242880, true, 1⟩ : LogOutputState).hasRotate = true ∧
        (⟨true, 5242880, true, 1⟩ : LogOutputState).rotate_countdown ≤ 1 ∧
        log_output_size_update ⟨true, 5242880, true, 1⟩ none ≥ MAX_OUTPUT_SIZE)) ∧
    ((⟨true, 0, true, 50⟩ : LogOutputState).rotate_countdown = MAX_ROTATE_COUNTDOWN ∧
      [((some 1 : Option Int), true, (some 0 : Option Int))].length ≤ 49 ∧
      (log_forward_entries ⟨true, 0, true, 50⟩
        [((some 1 : Option Int), true, (some 0 : Option Int))]).2 = 0) :=
  ⟨C7_rotate_countdown.1 ⟨true, 10, true, 3⟩ (some 4) true (some 0),
    C7_rotate_countdown.2.1 ⟨true, 5242880, true, 1⟩ none true (some 0),
    ⟨rfl, by decide,
      C7_rotate_countdown.2.2 ⟨true, 0, true, 50⟩
        [((some 1 : Option Int), true, (some 0 : Option Int))] rfl (by decide)⟩⟩

/-! ### Logger debug filter (log.c)

The debug-filter parser `log_set_debug_filter` and the inclusion check
`log_check_inclusion`. Strings are lists of characters (`*p`-style
traversal). The numeric constants of log.h are not among the sources;
modelled from the spec: the debug groups common/event/packet/object/libusb
are distinct bits with `all` covering every group, inclusion mask bit 1 is
the primary output, log levels are none < error < warn < info < debug, and
per-source line storage is bounded to 16 entries. -/

def MAX_DEBUG_FILTERS : Nat := 64

def MAX_SOURCE_NAME_SIZE : Nat := 64

def LOG_DEBUG_GROUP_NONE : Nat := 0x0000
def LOG_DEBUG_GROUP_COMMON : Nat := 0x0001
def LOG_DEBUG_GROUP_EVENT : Nat := 0x0002
def LOG_DEBUG_GROUP_PACKET : Nat := 0x0004
def LOG_DEBUG_GROUP_OBJECT : Nat := 0x0008
def LOG_DEBUG_GROUP_LIBUSB : Nat := 0x0010
def LOG_DEBUG_GROUP_ALL : Nat := 0xFFFF

def LOG_INCLUSION_NONE : Nat := 0x0000
def LOG_INCLUSION_PRIMARY : Nat := 0x0001

def LOG_LEVEL_DEBUG : Nat := 4

def LOG_MAX_SOURCE_LINES : Nat := 16

/-- Models `strcasecmp(a, b) == 0`: case-insensitive string equality. -/
def strCaseEq (a b : List Char) : Bool :=
  a.map Char.toLower == b.map Char.toLower

structure LogDebugFilter where
  included : Bool
  source_name : List Char
  line : Int
  groups : Nat
deriving DecidableEq, Repr

/-- Embeds the line-number loop of `log_set_debug_filter` (log.c lines
160-178): consume digits, rejecting the filter as soon as the value already
exceeds 100000 before a further digit. The C `int line` stays within
0..1000009 here, so Nat arithmetic coincides. Returns the value and the
remaining characters (positioned at `,` or the end); `none` models
returning false with a warning. -/
def parse_filter_line (cs : List Char) (line : Nat) : Option (Nat × List Char) :=
  match cs with
  | [] => some (line, [])
  | c :: rest =>
    if c = ',' then some (line, c :: rest)
    else if '0' ≤ c ∧ c ≤ '9' then
      if line > 100000 then none
      else parse_filter_line rest (line * 10 + (c.toNat - '0'.toNat))
    else none

/-- Embeds the source-name-and-line loop of `log_set_debug_filter` (log.c
lines 144-208): collect up to `MAX_SOURCE_NAME_SIZE` name characters until
`:`, `,` or the end; at `:` (rejected on an empty name) the line number is
parsed and must be non-zero, and the rule ends there. Returns the name, the
line (-1 when none was given) and the remaining characters. -/
def parse_filter_name (cs : List Char) (name : List Char) :
    Option (List Char × Int × List Char) :=
  match cs with
  | [] => some (name, -1, [])
  | c :: rest =>
    if c = ',' then some (name, -1, c :: rest)
    else if c = ':' then
      if name.length = 0 then none
      else
        match parse_filter_line rest 0 with
        | none => none
        | some (line, rest') =>
          if line = 0 then none else some (name, (line : Int), rest')
    else if name.length ≥ MAX_SOURCE_NAME_SIZE then none
    else parse_filter_name rest (name ++ [c])

/-- Embeds the group-keyword matching of `log_set_debug_filter` (log.c
lines 210-224). -/
def filter_groups_for_name (name : List Char) : Nat :=
  if strCaseEq name ("common".toList) then LOG_DEBUG_GROUP_COMMON
  else if strCaseEq name ("event".toList) then LOG_DEBUG_GROUP_EVENT
  else if strCaseEq name ("packet".toList) then LOG_DEBUG_GROUP_PACKET
  else if strCaseEq name ("object".toList) then LOG_DEBUG_GROUP_OBJECT
  else if strCaseEq name ("libusb".toList) then LOG_DEBUG_GROUP_LIBUSB
  else if strCaseEq name ("all".toList) then LOG_DEBUG_GROUP_ALL
  else LOG_DEBUG_GROUP_NONE

/-- Embeds the outer rule loop of `log_set_debug_filter` (log.c lines
114-252). `none` models returning false (filter rejected with a warning),
`some filters` returning true with the rules installed. A line number on a
group-keyword rule is dropped with a warning (lines 226-234: the name is
cleared and the line reset to -1), and a trailing comma rejects the filter.
`fuel` bounds the rule count; every rule consumes at least its leading
`+`/`-`, so `cs.length + 1` units always suffice. -/
def log_set_debug_filter_loop (fuel : Nat) (cs : List Char) (i : Nat)
    (acc : List LogDebugFilter) : Option (List LogDebugFilter) :=
  match fuel with
  | 0 => none
  | fuel + 1 =>
    match cs with
    | [] => some acc
    | c :: rest =>
      if i ≥ MAX_DEBUG_FILTERS then none
      else
        match (if c = '+' then some true
          else if c = '-' then some false else none) with
        | none => none
        | some included =>
          match parse_filter_name rest [] with
          | none => none
          | some (name, line, rest') =>
            if name.length = 0 then none
            else
              let groups := filter_groups_for_name name
              let filt : LogDebugFilter :=
                if groups ≠ LOG_DEBUG_GROUP_NONE then
                  { included := included, source_name := [], line := -1,
                    groups := groups }
                else
                  { included := included, source_name := name, line := line,
                    groups := groups }
              match rest' with
              | ',' :: rest'' =>
                if rest''.length = 0 then none
                else log_set_debug_filter_loop fuel rest'' (i + 1) (acc ++ [filt])
              | _ => log_set_debug_filter_loop fuel rest' (i + 1) (acc ++ [filt])

def log_set_debug_filter (cs : List Char) : Option (List LogDebugFilter) :=
  log_set_debug_filter_loop (cs.length + 1) cs 0 []

structure LogSourceLine where
  number : Int
  included_debug_groups : Nat
deriving DecidableEq, Repr

/-- Models `mask &= ~groups` on the 32-bit group bitmasks. -/
def mask_and_not (mask groups : Nat) : Nat := mask &&& (0xFFFFFFFF ^^^ groups)

/-- Embeds one iteration of the filter-application loop of
`log_check_inclusion` (log.c lines 528-579), applying one rule to a
source's group mask and per-line entries. -/
def apply_filter_to_source (sourceName : List Char)
    (st : Nat × List LogSourceLine) (filt : LogDebugFilter) :
    Nat × List LogSourceLine :=
  if strCaseEq filt.source_name sourceName then
    if filt.line < 0 then
      ((if filt.included then LOG_DEBUG_GROUP_ALL else LOG_DEBUG_GROUP_NONE), st.2)
    else if st.2.any (fun sl => sl.number = filt.line) then
      (st.1, st.2.map (fun sl =>
        if sl.number = filt.line then
          { sl with included_debug_groups :=
              if filt.included then LOG_DEBUG_GROUP_ALL else LOG_DEBUG_GROUP_NONE }
        else sl))
    else if st.2.length ≥ LOG_MAX_SOURCE_LINES then st
    else (st.1, st.2 ++
      [{ number := filt.line,
         included_debug_groups :=
           if filt.included then LOG_DEBUG_GROUP_ALL else LOG_DEBUG_GROUP_NONE }])
  else
    ((if filt.included then st.1 ||| filt.groups
        else mask_and_not st.1 filt.groups),
      st.2.map (fun sl =>
        { sl with included_debug_groups :=
            if filt.included then sl.included_debug_groups ||| filt.groups
            else mask_and_not sl.included_debug_groups filt.groups }))

/-- Embeds the re-evaluation of a source's debug groups against the current
rule list (log.c lines 523-580): start from `LOG_DEBUG_GROUP_ALL` with no
per-line entries and apply every rule in order. -/
def update_source_debug_groups (filters : List LogDebugFilter)
    (sourceName : List Char) : Nat × List LogSourceLine :=
  filters.foldl (apply_filter_to_source sourceName) (LOG_DEBUG_GROUP_ALL, [])

/-- Embeds `log_check_inclusion` (log.c lines 475-605) for a source whose
name is already resolved, with the platform inclusion result as a
parameter (the model recomputes the source's debug groups on every call;
the code caches them per filter version with the same result). -/
def log_check_inclusion (platformResult : Nat) (debug_override : Bool)
    (_level : Nat) (filters : List LogDebugFilter) (sourceName : List Char)
    (level : Nat) (debug_group : Nat) (line : Int) : Nat :=
  if ¬ debug_override ∧ level > _level then platformResult
  else if level ≠ LOG_LEVEL_DEBUG then platformResult ||| LOG_INCLUSION_PRIMARY
  else if line > 0 then
    match (update_source_debug_groups filters sourceName).2.find?
        (fun sl => sl.number = line) with
    | some sl =>
      if sl.included_debug_groups &&& debug_group ≠ 0 then
        platformResult ||| LOG_INCLUSION_PRIMARY
      else platformResult
    | none =>
      if (update_source_debug_groups filters sourceName).1 &&& debug_group ≠ 0 then
        platformResult ||| LOG_INCLUSION_PRIMARY
      else platformResult
  else
    if (update_source_debug_groups filters sourceName).1 &&& debug_group ≠ 0 then
      platformResult ||| LOG_INCLUSION_PRIMARY
    else platformResult

/-! ### Decimal value of a digit string, for the line-number bound -/

/-- The value accumulated by the line-number loop: `a` is the value so far,
each digit appends as `a * 10 + d`. -/
def digitsValFrom (a : Nat) (ds : List Char) : Nat :=
  ds.foldl (fun a c => a * 10 + (c.toNat - '0'.toNat)) a

/-- The decimal value of a digit string. -/
def digitsVal (ds : List Char) : Nat := digitsValFrom 0 ds

theorem digitsValFrom_cons (a : Nat) (c : Char) (rest : List Char) :
    digitsValFrom a (c :: rest)
      = digitsValFrom (a * 10 + (c.toNat - '0'.toNat)) rest := rfl

theorem digitsValFrom_eq (ds : List Char) :
    ∀ (a : Nat), digitsValFrom a ds = a * 10 ^ ds.length + digitsVal ds := by
  induction ds with
  | nil =>
    intro a
    show a = a * 10 ^ 0 + 0
    omega
  | cons c rest ih =>
    intro a
    rw [digitsValFrom_cons, ih, show digitsVal (c :: rest)
        = digitsValFrom (0 * 10 + (c.toNat - '0'.toNat)) rest from rfl, ih]
    simp only [List.length_cons, pow_succ]
    ring

theorem digitsVal_lt (ds : List Char) (h : ∀ c ∈ ds, '0' ≤ c ∧ c ≤ '9') :
    digitsVal ds < 10 ^ ds.length := by
  induction ds with
  | nil => decide
  | cons c rest ih =>
    have hd : c.toNat - '0'.toNat ≤ 9 := by
      have h2 : c.toNat ≤ '9'.toNat := (h c (List.mem_cons_self c rest)).2
      have h0 : ('9' : Char).toNat = 57 := rfl
      have h00 : ('0' : Char).toNat = 48 := rfl
      omega
    have hr := ih (fun x hx => h x (List.mem_cons_of_mem _ hx))
    rw [show digitsVal (c :: rest)
        = digitsValFrom (0 * 10 + (c.toNat - '0'.toNat)) rest from rfl,
      digitsValFrom_eq]
    simp only [List.length_cons, pow_succ]
    have hp : 0 < 10 ^ rest.length := Nat.pos_pow_of_pos _ (by omega)
    calc (0 * 10 + (c.toNat - '0'.toNat)) * 10 ^ rest.length + digitsVal rest
        ≤ 9 * 10 ^ rest.length + digitsVal rest := by
          have := Nat.mul_le_mul_right (10 ^ rest.length)
            (show 0 * 10 + (c.toNat - '0'.toNat) ≤ 9 from by omega)
          omega
      _ < 10 * 10 ^ rest.length := by omega
      _ = 10 ^ rest.length * 10 := by ring

theorem digitsVal_take_div (ds : List Char)
    (h : ∀ c ∈ ds, '0' ≤ c ∧ c ≤ '9') (k : Nat) (hk : k ≤ ds.length) :
    digitsVal (ds.take k) = digitsVal ds / 10 ^ (ds.length - k) := by
  have hsplit : digitsVal ds
      = digitsVal (ds.take k) * 10 ^ (ds.length - k) + digitsVal (ds.drop k) := by
    conv_lhs => rw [show digitsVal ds = digitsValFrom 0 ds from rfl,
      ← List.take_append_drop k ds]
    rw [show digitsValFrom 0 (ds.take k ++ ds.drop k)
        = digitsValFrom (digitsValFrom 0 (ds.take k)) (ds.drop k) from
          by unfold digitsValFrom; rw [List.foldl_append],
      digitsValFrom_eq, List.length_drop]
    rfl
  have hlt : digitsVal (ds.drop k) < 10 ^ (ds.length - k) := by
    have := digitsVal_lt (ds.drop k) (fun x hx => h x (List.mem_of_mem_drop hx))
    rw [List.length_drop] at this
    exact this
  rw [hsplit, Nat.mul_comm, Nat.mul_add_div (Nat.pos_pow_of_pos _ (by omega)),
    Nat.div_eq_of_lt hlt, Nat.add_zero]

theorem digitsVal_prefix_le_div10 (ds : List Char)
    (h : ∀ c ∈ ds, '0' ≤ c ∧ c ≤ '9') (k : Nat) (hk : k < ds.length) :
    digitsVal (ds.take k) ≤ digitsVal ds / 10 := by
  rw [digitsVal_take_div ds h k (Nat.le_of_lt hk)]
  rw [show ds.length - k = (ds.length - k - 1) + 1 from by omega, pow_succ,
    ← Nat.div_div_eq_div_mul]
  exact Nat.div_le_div_right (Nat.div_le_self _ _)

/-- The line-number loop accepts exactly when no strict prefix of the digit
string already evaluates above 100000, and then returns the full value. -/
theorem parse_filter_line_spec (ds : List Char) :
    ∀ (a : Nat), (∀ c ∈ ds, '0' ≤ c ∧ c ≤ '9') →
    parse_filter_line ds a =
      if ∀ k, k < ds.length → digitsValFrom a (ds.take k) ≤ 100000
      then some (digitsValFrom a ds, []) else none := by
  induction ds with
  | nil =>
    intro a h
    have hcond : ∀ k, k < ([] : List Char).length →
        digitsValFrom a (([] : List Char).take k) ≤ 100000 := by
      intro k hk
      simp at hk
    rw [parse_filter_line, if_pos hcond]
    rfl
  | cons c rest ih =>
    intro a h
    have hc := h c (List.mem_cons_self c rest)
    have hnc : ¬ (c = ',') := by
      intro he
      rw [he] at hc
      exact absurd hc.1 (by decide)
    rw [parse_filter_line, if_neg hnc, if_pos hc]
    by_cases ha : a > 100000
    · rw [if_pos ha, if_neg ?hn]
      case hn =>
        intro hall
        have h0 : digitsValFrom a ((c :: rest).take 0) ≤ 100000 :=
          hall 0 (Nat.succ_pos _)
        have h0' : a ≤ 100000 := h0
        omega
    · rw [if_neg ha, ih (a * 10 + (c.toNat - '0'.toNat))
        (fun x hx => h x (List.mem_cons_of_mem _ hx))]
      have hiff : (∀ k, k < rest.length →
          digitsValFrom (a * 10 + (c.toNat - '0'.toNat)) (rest.take k) ≤ 100000)
          ↔ (∀ k, k < (c :: rest).length →
            digitsValFrom a ((c :: rest).take k) ≤ 100000) := by
        constructor
        · intro hr k hk
          match k with
          | 0 => exact (by omega : a ≤ 100000)
          | j + 1 =>
            rw [List.take_succ_cons, digitsValFrom_cons]
            exact hr j (by simpa using hk)
        · intro hr k hk
          have := hr (k + 1) (by simpa using hk)
          rw [List.take_succ_cons, digitsValFrom_cons] at this
          exact this
      rw [if_congr hiff rfl rfl, digitsValFrom_cons]

/-- Evaluating `parse_filter_name` on the rule tail `foo:<digits>`. -/
theorem parse_filter_name_foo (ds : List Char) :
    parse_filter_name ('f' :: 'o' :: 'o' :: ':' :: ds) []
      = (match parse_filter_line ds 0 with
         | none => none
         | some (line, rest') =>
           if line = 0 then none
           else some (['f', 'o', 'o'], (line : Int), rest')) := rfl

/-- Evaluating the first iteration of the rule loop on `+foo:<digits>`. -/
theorem log_set_debug_filter_loop_foo (ds : List Char) :
    log_set_debug_filter_loop (ds.length + 5 + 1)
        ('+' :: 'f' :: 'o' :: 'o' :: ':' :: ds) 0 []
      = (match parse_filter_name ('f' :: 'o' :: 'o' :: ':' :: ds) [] with
         | none => none
         | some (name, line, rest') =>
           if name.length = 0 then none
           else
             let groups := filter_groups_for_name name
             let filt : LogDebugFilter :=
               if groups ≠ LOG_DEBUG_GROUP_NONE then
                 { included := true, source_name := [], line := -1, groups := groups }
               else
                 { included := true, source_name := name, line := line, groups := groups }
             match rest' with
             | ',' :: rest'' =>
               if rest''.length = 0 then none
               else log_set_debug_filter_loop (ds.length + 5) rest'' (0 + 1) ([] ++ [filt])
             | _ => log_set_debug_filter_loop (ds.length + 5) rest' (0 + 1) ([] ++ [filt])) :=
  rfl

/-- The filter `+foo:<digits>` is accepted or rejected exactly as the digit
loop decides, and on acceptance installs the single rule for `foo`. -/
theorem log_set_debug_filter_foo (ds : List Char) (v : Nat)
    (hpl : parse_filter_line ds 0 = some (v, [])) :
    log_set_debug_filter ("+foo:".toList ++ ds)
      = if v = 0 then none
        else some [{ included := true, source_name := "foo".toList,
                     line := (v : Int), groups := LOG_DEBUG_GROUP_NONE }] := by
  unfold log_set_debug_filter
  rw [show "+foo:".toList ++ ds = '+' :: 'f' :: 'o' :: 'o' :: ':' :: ds from rfl]
  rw [show ('+' :: 'f' :: 'o' :: 'o' :: ':' :: ds).length + 1
      = ds.length + 5 + 1 from by simp]
  have hname : parse_filter_name ('f' :: 'o' :: 'o' :: ':' :: ds) []
      = if v = 0 then none else some (['f', 'o', 'o'], (v : Int), []) := by
    rw [parse_filter_name_foo, hpl]
  rw [log_set_debug_filter_loop_foo ds, hname]
  by_cases h0 : v = 0
  · rw [if_pos h0, if_pos h0]
  · rw [if_neg h0, if_neg h0]
    rfl

theorem log_set_debug_filter_foo_none (ds : List Char)
    (hpl : parse_filter_line ds 0 = none) :
    log_set_debug_filter ("+foo:".toList ++ ds) = none := by
  unfold log_set_debug_filter
  rw [show "+foo:".toList ++ ds = '+' :: 'f' :: 'o' :: 'o' :: ':' :: ds from rfl]
  rw [show ('+' :: 'f' :: 'o' :: 'o' :: ':' :: ds).length + 1
      = ds.length + 5 + 1 from by simp]
  rw [log_set_debug_filter_loop_foo ds, parse_filter_name_foo, hpl]

/-- C9 (amended): the line numbers accepted by `log_set_debug_filter` are
exactly 1..1000009 (not 1..99999): the guard `line > 100000` only fires
before a further digit, so any value whose all proper decimal prefixes are
at most 100000 -- i.e. any value up to 1000009 -- passes, and 0 is
rejected. On acceptance the rule stores exactly the parsed value. -/
theorem C9_line_number_range (ds : List Char) (hne : ds ≠ [])
    (hdig : ∀ c ∈ ds, '0' ≤ c ∧ c ≤ '9') :
    ((log_set_debug_filter ("+foo:".toList ++ ds)).isSome ↔
      1 ≤ digitsVal ds ∧ digitsVal ds ≤ 1000009) ∧
    (1 ≤ digitsVal ds ∧ digitsVal ds ≤ 1000009 →
      log_set_debug_filter ("+foo:".toList ++ ds)
        = some [{ included := true, source_name := "foo".toList,
                  line := (digitsVal ds : Int),
                  groups := LOG_DEBUG_GROUP_NONE }]) := by
  have hlen1 : 1 ≤ ds.length := List.length_pos.mpr hne
  have hspec := parse_filter_line_spec ds 0 hdig
  by_cases hall : ∀ k, k < ds.length → digitsValFrom 0 (ds.take k) ≤ 100000
  · rw [if_pos hall] at hspec
    have hfoo := log_set_debug_filter_foo ds (digitsValFrom 0 ds) hspec
    have hb : digitsVal ds ≤ 1000009 := by
      have h1 := hall (ds.length - 1) (by omega)
      have h2 := digitsVal_take_div ds hdig (ds.length - 1) (by omega)
      rw [show ds.length - (ds.length - 1) = 1 from by omega, pow_one] at h2
      have h1' : digitsVal (ds.take (ds.length - 1)) ≤ 100000 := h1
      rw [h2] at h1'
      have h3 : digitsVal ds / 10 < 100001 := by omega
      have h4 : digitsVal ds < 100001 * 10 := (Nat.div_lt_iff_lt_mul (by omega)).mp h3
      omega
    constructor
    · rw [hfoo]
      by_cases h0 : digitsValFrom 0 ds = 0
      · rw [if_pos h0]
        have h0' : digitsVal ds = 0 := h0
        simp only [Option.isSome_none, Bool.false_eq_true, false_iff]
        intro hcontra
        omega
      · rw [if_neg h0]
        have h0' : digitsVal ds ≠ 0 := h0
        simp only [Option.isSome_some, true_iff]
        exact ⟨by omega, hb⟩
    · intro h12
      rw [hfoo, if_neg (show ¬ digitsValFrom 0 ds = 0 from by
        have h0' : 1 ≤ digitsVal ds := h12.1
        intro hz
        have hz' : digitsVal ds = 0 := hz
        omega)]
      rfl
  · rw [if_neg hall] at hspec
    have hfoo := log_set_debug_filter_foo_none ds hspec
    push_neg at hall
    obtain ⟨k, hk, hgt⟩ := hall
    have hle := digitsVal_prefix_le_div10 ds hdig k hk
    have hgt' : 100000 < digitsVal (ds.take k) := hgt
    have hdiv : 100000 < digitsVal ds / 10 := lt_of_lt_of_le hgt' hle
    have hv : 1000009 < digitsVal ds := by
      by_contra hc
      push_neg at hc
      have hd1 : digitsVal ds / 10 ≤ 1000009 / 10 := Nat.div_le_div_right hc
      have hd2 : (1000009 : Nat) / 10 = 100000 := by norm_num
      omega
    constructor
    · rw [hfoo]
      simp only [Option.isSome_none, Bool.false_eq_true, false_iff]
      intro hcontra
      omega
    · intro h12
      exact absurd h12.2 (by omega)

theorem C9_line_number_range_witness :
    ("42".toList ≠ []) ∧ (∀ c ∈ "42".toList, '0' ≤ c ∧ c ≤ '9') ∧
    (((log_set_debug_filter ("+foo:".toList ++ "42".toList)).isSome ↔
        1 ≤ digitsVal ("42".toList) ∧ digitsVal ("42".toList) ≤ 1000009) ∧
      (1 ≤ digitsVal ("42".toList) ∧ digitsVal ("42".toList) ≤ 1000009 →
        log_set_debug_filter ("+foo:".toList ++ "42".toList)
          = some [{ included := true, source_name := "foo".toList,
                    line := (digitsVal ("42".toList) : Int),
                    groups := LOG_DEBUG_GROUP_NONE }])) :=
  ⟨by decide, by decide,
    C9_line_number_range ("42".toList) (by decide) (by decide)⟩

/-- C9, as stated, fails: the filter rule `+foo:100000` is accepted by
`log_set_debug_filter` (it returns true and stores line 100000), although
100000 > 99999. The guard `line > 100000` (log.c line 162) only rejects
once the value exceeds 100000 with another digit still to come. -/
theorem C9_counterexample :
    (log_set_debug_filter ("+foo:100000".toList)).isSome = true ∧
    log_set_debug_filter ("+foo:100000".toList)
      = some [{ included := true, source_name := "foo".toList, line := 100000,
                groups := LOG_DEBUG_GROUP_NONE }] ∧
    (100000 : Nat) > 99999 := by
  decide

/-- C8, as stated, fails: under the filter `+all,-packet,+packet:137` a
debug check for source foo.c at line 138 with group packet is INCLUDED, not
excluded. The parser drops the line number of the group-keyword rule
`+packet:137` with a warning (log.c lines 226-234), so the rule acts as a
plain `+packet` and re-includes the whole group. -/
theorem C8_counterexample :
    (log_set_debug_filter ("+all,-packet,+packet:137".toList)).isSome = true ∧
    log_check_inclusion 0 false LOG_LEVEL_DEBUG
        ((log_set_debug_filter ("+all,-packet,+packet:137".toList)).getD [])
        ("foo.c".toList) LOG_LEVEL_DEBUG LOG_DEBUG_GROUP_PACKET 138
      ≠ LOG_INCLUSION_NONE := by
  decide

/-- C8 (amended): with debug filter `+all,-packet,+packet:137` in effect, a
debug-level inclusion check for source foo.c reports primary inclusion at
line 137 with group packet, at line 138 with group packet (the line number
on the group-keyword rule is ignored with a warning, so `+packet:137` acts
as `+packet`), and with group event at any line. -/
theorem C8_debug_filter_scenario :
    log_check_inclusion 0 false LOG_LEVEL_DEBUG
        ((log_set_debug_filter ("+all,-packet,+packet:137".toList)).getD [])
        ("foo.c".toList) LOG_LEVEL_DEBUG LOG_DEBUG_GROUP_PACKET 137
      = LOG_INCLUSION_PRIMARY ∧
    log_check_inclusion 0 false LOG_LEVEL_DEBUG
        ((log_set_debug_filter ("+all,-packet,+packet:137".toList)).getD [])
        ("foo.c".toList) LOG_LEVEL_DEBUG LOG_DEBUG_GROUP_PACKET 138
      = LOG_INCLUSION_PRIMARY ∧
    (∀ line : Int,
      log_check_inclusion 0 false LOG_LEVEL_DEBUG
          ((log_set_debug_filter ("+all,-packet,+packet:137".toList)).getD [])
          ("foo.c".toList) LOG_LEVEL_DEBUG LOG_DEBUG_GROUP_EVENT line
        = LOG_INCLUSION_PRIMARY) := by
  refine ⟨by decide, by decide, ?_⟩
  intro line
  have hupd : update_source_debug_groups
      ((log_set_debug_filter ("+all,-packet,+packet:137".toList)).getD [])
      ("foo.c".toList) = (65535, []) := by decide
  unfold log_check_inclusion
  rw [if_neg (by simp), if_neg (by simp)]
  by_cases hl : line > 0
  · rw [if_pos hl, hupd]
    have hf : (((65535 : Nat), ([] : List LogSourceLine)).2).find?
        (fun sl => sl.number = line) = none := rfl
    rw [hf]
    decide
  · rw [if_neg hl, hupd]
    decide

end Daemonlib
